import Mathlib

/-!
# Verification of the 1click_oversea translation core

Shallow embedding of `src/lib/translate.py`: the flattener
(`flatten_product_data`), the batch-translation coordinator
(`translate_flattened_data`), the structure rebuilder
(`rebuild_product_data`) and the top-level entry
(`translate_product_data`), together with proofs of the specification
claims about them.

Modelling conventions:
* Python's JSON-like documents become the mutual inductive `JValue` /
  `JList` / `JFields` (arrays and objects carry their children in
  bespoke list types so that all functions are structurally recursive
  and compute by `decide`).
* Python dicts keyed by strings become `PyDict` association lists with
  Python's assignment semantics (update in place, insert at the end).
* The text-generation collaborator (`agent.run`) is an oracle
  `CollabBehavior`: for each call number and dispatched chunk it either
  raises, returns a falsy/invalid output, or returns a structured list
  of `TranslationItem`s.  A raised error becomes `Except.error` because
  `translate_flattened_data` contains no `try`/`except`.
* `int(x / y * 100)` percent computations are modelled with natural
  floor division `x * 100 / y`; in the source every such division runs
  with a positive denominator, so the model never hides a Python
  `ZeroDivisionError` (claim C10 proves the zero-total case emits no
  such event).  Calling the coordinator with `chunk_size = 0` and a
  nonempty pending list is Python's `range(0, n, 0)` `ValueError`,
  modelled as `CoordError.invalidChunkSize`.
-/

/-- Decimal digit characters, matching Python's `str` on nonnegative ints. -/
def digitChar : Nat → Char
  | 0 => '0' | 1 => '1' | 2 => '2' | 3 => '3' | 4 => '4'
  | 5 => '5' | 6 => '6' | 7 => '7' | 8 => '8' | _ => '9'

/-- Fuel-driven decimal printer (structural so that it computes by `decide`). -/
def natDigitsAux : Nat → Nat → List Char
  | 0, n => [digitChar n]
  | fuel + 1, n =>
    if n < 10 then [digitChar n]
    else natDigitsAux fuel (n / 10) ++ [digitChar (n % 10)]

/-- The decimal digits of `n`, most significant first. -/
def natDigits (n : Nat) : List Char := natDigitsAux n n

/-- Decimal rendering of a natural number, as Python's `str`. -/
def natToStr (n : Nat) : String := ⟨natDigits n⟩

mutual
/-- A JSON-like Python value: the shape of product documents. -/
inductive JValue where
  | null : JValue
  | bool (b : Bool) : JValue
  | num (n : Int) : JValue
  | str (s : String) : JValue
  | arr (items : JList) : JValue
  | obj (fields : JFields) : JValue

/-- The elements of a JSON array. -/
inductive JList where
  | nil : JList
  | cons (head : JValue) (tail : JList) : JList

/-- The key/value pairs of a JSON object, in insertion order. -/
inductive JFields where
  | nil : JFields
  | cons (key : String) (value : JValue) (tail : JFields) : JFields
end

/-- Python `str` on a scalar (non-dict, non-list) value. -/
def scalarStr : JValue → String
  | .null => "None"
  | .bool true => "True"
  | .bool false => "False"
  | .num n => if n < 0 then "-" ++ natToStr n.natAbs else natToStr n.toNat
  | .str s => s
  | .arr _ => ""
  | .obj _ => ""

/-- One flattened leaf record: `{"path": ..., "text": ...}`. -/
structure FlatLeaf where
  path : String
  text : String
deriving DecidableEq, Repr

/-- Path of a mapping child: `f"{path}.{key}" if path else key`. -/
def joinKey (path key : String) : String :=
  if path = "" then key else path ++ "." ++ key

/-- Path of a sequence child: `f"{path}[{i}]"`. -/
def joinIdx (path : String) (i : Nat) : String :=
  path ++ "[" ++ natToStr i ++ "]"

mutual
/-- `_flatten` restricted to a dict body (`src/lib/translate.py:61-67`). -/
def flattenFields : JFields → String → List FlatLeaf
  | .nil, _ => []
  | .cons key value rest, path =>
    (match value with
     | .obj fs => flattenFields fs (joinKey path key)
     | .arr its => flattenItems its (joinKey path key) 0
     | .null => []
     | v => [⟨joinKey path key, scalarStr v⟩]) ++ flattenFields rest path

/-- `_flatten` restricted to a list body (`src/lib/translate.py:68-74`). -/
def flattenItems : JList → String → Nat → List FlatLeaf
  | .nil, _, _ => []
  | .cons item rest, path, i =>
    (match item with
     | .obj fs => flattenFields fs (joinIdx path i)
     | .arr its => flattenItems its (joinIdx path i) 0
     | .null => []
     | v => [⟨joinIdx path i, scalarStr v⟩]) ++ flattenItems rest path (i + 1)
end

/-- `flatten_product_data` (`src/lib/translate.py:48-77`): flatten a
product-data dict into an ordered list of `{"path", "text"}` records. -/
def flatten_product_data (data : JFields) : List FlatLeaf :=
  flattenFields data ""

/-- Association list with Python-dict assignment/lookup semantics. -/
abbrev PyDict (α : Type) := List (String × α)

namespace PyDict

/-- `d[k] = v`: replace in place if the key exists, else append. -/
def set : PyDict α → String → α → PyDict α
  | [], k, v => [(k, v)]
  | (k', v') :: rest, k, v =>
    if k' = k then (k', v) :: rest else (k', v') :: set rest k v

/-- `d.get(k)` / `d[k]`. -/
def get? : PyDict α → String → Option α
  | [], _ => none
  | (k', v') :: rest, k => if k' = k then some v' else get? rest k

/-- `d.get(k, dflt)`. -/
def getD (m : PyDict α) (k : String) (dflt : α) : α :=
  (m.get? k).getD dflt

end PyDict

-- quick sanity checks of the base layer
example : natToStr 0 = "0" := by decide
example : natToStr 137 = "137" := by decide
example : flatten_product_data
    (.cons "a" (.obj (.cons "b" (.arr (.cons (.num 1) (.cons (.str "z") .nil))) .nil)) .nil)
    = [⟨"a.b[0]", "1"⟩, ⟨"a.b[1]", "z"⟩] := by decide

/-! ## The batch-translation coordinator (`translate_flattened_data`) -/

/-- Per-path terminal classification (`TranslationStatus` enum). -/
inductive TranslationStatus where
  | translated
  | notNeeded
  | missed
deriving DecidableEq, Repr

/-- One item of the structured collaborator response (`TranslationItem`). -/
structure TranslationItem where
  path : String
  original_text : String
  should_translate : Bool
  translated_text : Option String
deriving DecidableEq, Repr

/-- One output record of the coordinator:
`{"path", "text", "translation_status"}`. -/
structure ResolvedLeaf where
  path : String
  text : String
  translation_status : TranslationStatus
deriving DecidableEq, Repr

/-- Result of one `agent.run` call on a chunk.  `raise` models a raised
exception (timeout, schema failure after the agent's internal retries);
`noOutput` models a falsy `result.output` (the `else` branch at
`src/lib/translate.py:177-180`); `ok` is a well-formed
`TranslationResponse`. -/
inductive CollabOutcome where
  | raise
  | noOutput
  | ok (translations : List TranslationItem)

/-- The collaborator as an oracle: outcome of the `n`-th call (counted
from 0 across all passes) on a dispatched chunk. -/
abbrev CollabBehavior := Nat → List FlatLeaf → CollabOutcome

/-- Errors that escape `translate_flattened_data`: an uncaught
collaborator exception, or Python's `range(0, n, 0)` `ValueError` for a
zero chunk size. -/
inductive CoordError where
  | collabRaised
  | invalidChunkSize
deriving DecidableEq, Repr

/-- Progress events handed to `progress_callback`, in emission order.
Percent fields use `x * 100 / y` for Python's `int(x / y * 100)`. -/
inductive ProgressEvent where
  | started (total_items processed_items percent : Nat)
  | inProgress (passNum current_chunk total_chunks chunk_percent
      total_items processed_items percent : Nat)
  | passCompleted (passNum total_passes total_items processed_items percent : Nat)
  | completed (total_items processed_items translated notNeeded missed percent : Nat)
deriving DecidableEq, Repr

/-- Coordinator state threaded through the pass loop.  `events` and
`dispatched` are observation logs: the progress events emitted so far
and the chunks handed to the collaborator so far. -/
structure CoordSt where
  translations : PyDict String
  status_map : PyDict TranslationStatus
  callIdx : Nat
  events : List ProgressEvent
  dispatched : List (List FlatLeaf)
deriving DecidableEq, Repr

/-- `chunks = [pending[i:i+cs] for i in range(0, len(pending), cs)]`,
as a structural recursion (`chunkAcc` carries the current chunk in
reverse).  Only called with `cs > 0`. -/
def chunkAcc (cs : Nat) (acc : List FlatLeaf) :
    Nat → List FlatLeaf → List (List FlatLeaf)
  | _, [] => [acc.reverse]
  | 0, y :: ys => acc.reverse :: chunkAcc cs [y] (cs - 1) ys
  | k + 1, y :: ys => chunkAcc cs (y :: acc) k ys

/-- Partition `xs` into contiguous chunks of at most `cs` elements. -/
def chunkList (cs : Nat) : List FlatLeaf → List (List FlatLeaf)
  | [] => []
  | x :: rest => chunkAcc cs [x] (cs - 1) rest

example : chunkList 2 [⟨"a", ""⟩, ⟨"b", ""⟩, ⟨"c", ""⟩, ⟨"d", ""⟩, ⟨"e", ""⟩]
    = [[⟨"a", ""⟩, ⟨"b", ""⟩], [⟨"c", ""⟩, ⟨"d", ""⟩], [⟨"e", ""⟩]] := by decide

/-- Python truthiness of `item.translated_text`: a non-`None`, nonempty
string. -/
def truthyText : Option String → Bool
  | some s => !(s = "")
  | none => false

/-- `chunk_dict = {item["path"]: item for item in chunk}`
(`src/lib/translate.py:139`). -/
def chunkDict (chunk : List FlatLeaf) : PyDict FlatLeaf :=
  chunk.foldl (fun m it => m.set it.path it) []

/-- Record one returned `TranslationItem`
(`src/lib/translate.py:156-166`): translated text when flagged and
nonempty, otherwise the chunk's original text (empty for a path outside
the chunk) with status `notNeeded`. -/
def recordItem (cd : PyDict FlatLeaf) (st : CoordSt) (it : TranslationItem) : CoordSt :=
  if it.should_translate && truthyText it.translated_text then
    { st with translations := st.translations.set it.path (it.translated_text.getD ""),
              status_map := st.status_map.set it.path .translated }
  else
    { st with translations :=
        st.translations.set it.path (((cd.get? it.path).map (·.text)).getD ""),
              status_map := st.status_map.set it.path .notNeeded }

/-- Process one dispatched chunk (`src/lib/translate.py:135-180`):
log the dispatch, consult the collaborator, and return the updated
state together with the items re-queued for the next pass.  A raised
call propagates (`.error`); a falsy output re-queues the whole chunk;
a well-formed response records every returned item and re-queues the
chunk entries whose path the response did not mention.  (`recordItem`
never touches `callIdx`, so incrementing it at the end is the same as
counting the call up front.) -/
def processChunk (behavior : CollabBehavior) (st : CoordSt) (chunk : List FlatLeaf) :
    Except CoordError (CoordSt × List FlatLeaf) :=
  match behavior st.callIdx chunk with
  | .raise => .error .collabRaised
  | .noOutput =>
    .ok ({ st with dispatched := st.dispatched ++ [chunk],
                   callIdx := st.callIdx + 1 }, chunk)
  | .ok items =>
    let cd := chunkDict chunk
    let st1 := items.foldl (recordItem cd)
      { st with dispatched := st.dispatched ++ [chunk] }
    let requeued :=
      (cd.filter (fun kv => !((items.map (·.path)).contains kv.1))).map (·.2)
    .ok ({ st1 with callIdx := st.callIdx + 1 }, requeued)

/-- The chunk loop of one pass, accumulating re-queued items and
emitting an `inProgress` event after each chunk
(`src/lib/translate.py:135-201`). -/
def processChunks (behavior : CollabBehavior) (passNum totalItems totalChunks : Nat) :
    Nat → CoordSt → List (List FlatLeaf) → List FlatLeaf →
    Except CoordError (CoordSt × List FlatLeaf)
  | _, st, [], acc => .ok (st, acc)
  | idx, st, chunk :: rest, acc => do
    let (st1, requeued) ← processChunk behavior st chunk
    let done := idx + 1
    let processedCount := st1.translations.length
    let ev := ProgressEvent.inProgress passNum done totalChunks
      (done * 100 / totalChunks) totalItems processedCount
      (processedCount * 100 / totalItems)
    processChunks behavior passNum totalItems totalChunks (idx + 1)
      { st1 with events := st1.events ++ [ev] } rest (acc ++ requeued)

/-- The pass loop (`src/lib/translate.py:118-225`): run up to
`passesLeft` more passes, breaking early once nothing is pending, and
emit a `passCompleted` event after each executed pass. -/
def runPasses (behavior : CollabBehavior) (cs maxPasses totalItems : Nat) :
    Nat → CoordSt → List FlatLeaf → Except CoordError (CoordSt × List FlatLeaf)
  | 0, st, pending => .ok (st, pending)
  | passesLeft + 1, st, pending =>
    if pending.isEmpty then .ok (st, pending)
    else if cs = 0 then .error .invalidChunkSize
    else do
      let passNum := maxPasses - passesLeft
      let chunks := chunkList cs pending
      let (st1, newPending) ←
        processChunks behavior passNum totalItems chunks.length 0 st chunks []
      let processedCount := st1.translations.length
      let ev := ProgressEvent.passCompleted passNum maxPasses totalItems
        processedCount (processedCount * 100 / totalItems)
      runPasses behavior cs maxPasses totalItems passesLeft
        { st1 with events := st1.events ++ [ev] } newPending

/-- `translations[path] = item["text"]; status_map[path] = MISSED` for
every item still pending after the pass loop
(`src/lib/translate.py:227-230`). -/
def forceResolve (st : CoordSt) (pending : List FlatLeaf) : CoordSt :=
  pending.foldl (fun acc it =>
    { acc with translations := acc.translations.set it.path it.text,
               status_map := acc.status_map.set it.path .missed }) st

/-- Final reconstruction in original input order
(`src/lib/translate.py:232-242`). -/
def finalize (st : CoordSt) (it : FlatLeaf) : ResolvedLeaf :=
  { path := it.path,
    text := st.translations.getD it.path it.text,
    translation_status := st.status_map.getD it.path .missed }

/-- `translate_flattened_data` (`src/lib/translate.py:80-269`):
multi-pass chunked translation of a flattened leaf list against the
collaborator oracle.  Returns the final coordinator state (with its
event and dispatch logs) and the resolved leaf list. -/
def translate_flattened_data (flattened_data : List FlatLeaf)
    (chunk_size max_passes : Nat) (behavior : CollabBehavior) :
    Except CoordError (CoordSt × List ResolvedLeaf) := do
  let totalItems := flattened_data.length
  let st0 : CoordSt :=
    { translations := [], status_map := [], callIdx := 0,
      events := [ProgressEvent.started totalItems 0 0], dispatched := [] }
  let (st1, pendingEnd) ←
    runPasses behavior chunk_size max_passes totalItems max_passes st0 flattened_data
  let st2 := forceResolve st1 pendingEnd
  let result := flattened_data.map (finalize st2)
  let translated := (result.filter (fun r => r.translation_status = .translated)).length
  let notNeeded := (result.filter (fun r => r.translation_status = .notNeeded)).length
  let missed := (result.filter (fun r => r.translation_status = .missed)).length
  let st3 := { st2 with events := st2.events ++
    [ProgressEvent.completed totalItems totalItems translated notNeeded missed 100] }
  .ok (st3, result)

/-! ## The structure rebuilder (`rebuild_product_data`) -/

mutual
/-- `_update_value` on a dict body (`src/lib/translate.py:290-296`),
rebuilt purely: leaves whose path is in the lookup are replaced by the
looked-up text. -/
def rebuildFields (m : PyDict String) : JFields → String → JFields
  | .nil, _ => .nil
  | .cons key value rest, path =>
    let current := joinKey path key
    .cons key
      (match value with
       | .obj fs => .obj (rebuildFields m fs current)
       | .arr its => .arr (rebuildItems m its current 0)
       | v => match m.get? current with
              | some t => .str t
              | none => v)
      (rebuildFields m rest path)

/-- `_update_value` on a list body (`src/lib/translate.py:297-303`). -/
def rebuildItems (m : PyDict String) : JList → String → Nat → JList
  | .nil, _, _ => .nil
  | .cons item rest, path, i =>
    let current := joinIdx path i
    .cons
      (match item with
       | .obj fs => .obj (rebuildFields m fs current)
       | .arr its => .arr (rebuildItems m its current 0)
       | v => match m.get? current with
              | some t => .str t
              | none => v)
      (rebuildItems m rest path (i + 1))
end

/-- `rebuild_product_data` (`src/lib/translate.py:272-306`): deep-copy
the original dict and overwrite every leaf whose path occurs in the
`path → text` lookup built from the resolved leaves. -/
def rebuild_product_data (original_data : JFields)
    (translated_flat_data : List ResolvedLeaf) : JFields :=
  let path_to_text : PyDict String :=
    translated_flat_data.foldl (fun m it => m.set it.path it.text) []
  rebuildFields path_to_text original_data ""

/-- `translate_product_data` (`src/lib/translate.py:309-333`):
flatten, translate against the collaborator, rebuild.  No key-based
partitioning happens anywhere in this function. -/
def translate_product_data (data : JFields) (chunk_size max_passes : Nat)
    (behavior : CollabBehavior) : Except CoordError (CoordSt × JFields) :=
  (translate_flattened_data (flatten_product_data data) chunk_size max_passes
      behavior).map (fun p => (p.1, rebuild_product_data data p.2))

/-! ## Concrete collaborator behaviors and result projections -/

/-- A collaborator that never produces any usable output. -/
def alwaysNoOutput : CollabBehavior := fun _ _ => .noOutput

/-- A collaborator whose every call raises. -/
def alwaysRaise : CollabBehavior := fun _ _ => .raise

/-- The echoed response items for a chunk: every requested item
returned with `should_translate = false`. -/
def echoItems (chunk : List FlatLeaf) : List TranslationItem :=
  chunk.map fun it => ⟨it.path, it.text, false, none⟩

/-- A collaborator that echoes every requested item back with
`should_translate = false`. -/
def echoNotNeeded : CollabBehavior := fun _ chunk => .ok (echoItems chunk)

/-- A collaborator that answers the first call correctly and then
hallucinates an extra response item for the already-resolved path
`"a"` inside the second call's response. -/
def hallucinatingB : CollabBehavior := fun n _ =>
  match n with
  | 0 => .ok [⟨"a", "x", false, none⟩]
  | _ => .ok [⟨"b", "y", false, none⟩, ⟨"a", "x", false, none⟩]

/-- The resolved-leaf list of a coordinator run (empty on error). -/
def resultOf (r : Except CoordError (CoordSt × List ResolvedLeaf)) : List ResolvedLeaf :=
  match r with
  | .ok (_, res) => res
  | .error _ => []

/-- The dispatch log of a `translate_product_data` run (empty on error). -/
def dispatchedOf (r : Except CoordError (CoordSt × JFields)) : List (List FlatLeaf) :=
  match r with
  | .ok (st, _) => st.dispatched
  | .error _ => []

/-- The rebuilt document of a `translate_product_data` run
(`JFields.nil` on error). -/
def rebuiltOf (r : Except CoordError (CoordSt × JFields)) : JFields :=
  match r with
  | .ok (_, d) => d
  | .error _ => .nil

/-! ## C10: empty input -/

/-- C10: with an empty input list `translate_flattened_data` returns an
empty result and emits exactly the `started` (percent 0) and
`completed` (percent 100) events; no `inProgress` or `passCompleted`
event — the only events whose percent divides by the total item
count — is ever emitted, because the pass loop breaks before any chunk
is processed. -/
theorem translate_empty_input (cs mp : Nat) (behavior : CollabBehavior) :
    translate_flattened_data [] cs mp behavior =
      .ok ({ translations := [], status_map := [], callIdx := 0,
             events := [.started 0 0 0, .completed 0 0 0 0 0 100],
             dispatched := [] }, []) := by
  cases mp <;> rfl

/-! ## C8: the path-addressing example -/

/-- The spec's path-addressing example document, with the scalar leaf
`1` and the string leaf `"草"`. -/
def exampleDoc : JFields :=
  .cons "a" (.obj (.cons "b" (.arr (.cons (.num 1) (.cons (.str "草") .nil))) .nil)) .nil

/-- C8 counterexample: flattening the example document does NOT yield
the claimed one-element sequence — the integer leaf `1` is stringified
and emitted as well, so the result has two elements. -/
theorem flatten_example_not_singleton :
    flatten_product_data exampleDoc = [⟨"a.b[0]", "1"⟩, ⟨"a.b[1]", "草"⟩] ∧
    flatten_product_data exampleDoc ≠ [⟨"a.b[1]", "草"⟩] := by decide

/-- C8 amended: flattening the example document yields the two-element
sequence with the integer leaf stringified, reproducing the exact path
syntax `a.b[0]` / `a.b[1]`. -/
theorem flatten_example_paths :
    flatten_product_data exampleDoc = [⟨"a.b[0]", "1"⟩, ⟨"a.b[1]", "草"⟩] := by decide

/-! ## C2 counterexample: raised collaborator errors are not caught -/

/-- C2 counterexample: `translate_flattened_data` contains no
`try`/`except`, so a collaborator call that raises propagates out of
the function instead of being treated as a missing response. -/
theorem translate_raise_propagates :
    translate_flattened_data [⟨"a", "x"⟩] 50 3 alwaysRaise = .error .collabRaised := by
  rfl

/-! ## C6 counterexample: dotted keys make paths collide -/

/-- A document whose top-level key `"a.b"` collides with the nested
leaf `a → b`. -/
def dottedKeyDoc : JFields :=
  .cons "a.b" (.str "x") (.cons "a" (.obj (.cons "b" (.str "y") .nil)) .nil)

/-- C6 counterexample: two distinct scalar leaves of `dottedKeyDoc`
flatten to the same path `"a.b"`, so the paths produced by
`flatten_product_data` are not pairwise distinct in general. -/
theorem flatten_paths_collide :
    ((flatten_product_data dottedKeyDoc).map (·.path)) = ["a.b", "a.b"] ∧
    ¬ ((flatten_product_data dottedKeyDoc).map (·.path)).Nodup := by decide

/-! ## C7 counterexample: hallucinated response items break NotNeeded -/

/-- C7 counterexample: with chunk size 1 and input
`[{a, "x"}, {b, "y"}]`, a response for the second chunk that also
contains an item for the already-resolved path `"a"` makes the
coordinator overwrite `"a"`'s resolved text with the empty default
`chunk_dict.get(path, {}).get("text", "")`; the final output then has
a leaf whose status is `notNeeded` but whose text is `""`, not its
original `"x"`. -/
theorem notNeeded_entry_without_original_text :
    resultOf (translate_flattened_data [⟨"a", "x"⟩, ⟨"b", "y"⟩] 1 1 hallucinatingB) =
      [⟨"a", "", .notNeeded⟩, ⟨"b", "y", .notNeeded⟩] ∧
    ("" : String) ≠ "x" := by decide

/-! ## C5 counterexample: no key is withheld from the collaborator -/

/-- A product document with an image-gallery key and the source URL. -/
def galleryDoc : JFields :=
  .cons "product_images" (.arr (.cons (.str "http://img.jpg") .nil))
    (.cons "url" (.str "http://x") .nil)

/-- C5 counterexample: `translate_product_data` performs no
partitioning — the leaves under `product_images` and the `url` leaf
appear in the very first batch dispatched to the collaborator. -/
theorem gallery_and_url_reach_collaborator :
    dispatchedOf (translate_product_data galleryDoc 50 3 echoNotNeeded) =
      [[⟨"product_images[0]", "http://img.jpg"⟩, ⟨"url", "http://x"⟩]] ∧
    ⟨"url", "http://x"⟩ ∈
      (dispatchedOf (translate_product_data galleryDoc 50 3 echoNotNeeded)).flatten := by
  decide

/-! ## Dictionary lemmas -/

namespace PyDict

theorem get?_set_self (m : PyDict α) (k : String) (v : α) :
    (m.set k v).get? k = some v := by
  induction m with
  | nil => simp [set, get?]
  | cons kv rest ih =>
    obtain ⟨k', v'⟩ := kv
    by_cases h : k' = k <;> simp [set, get?, h, ih]

theorem get?_set_ne (m : PyDict α) {k k' : String} (v : α) (h : k ≠ k') :
    (m.set k v).get? k' = m.get? k' := by
  induction m with
  | nil => simp [set, get?, h]
  | cons kv rest ih =>
    obtain ⟨k0, v0⟩ := kv
    by_cases h0 : k0 = k
    · subst h0; simp [set, get?, h]
    · simp [set, get?, h0, ih]

theorem get?_mem {m : PyDict α} {k : String} {v : α} (h : m.get? k = some v) :
    (k, v) ∈ m := by
  induction m with
  | nil => simp [get?] at h
  | cons kv rest ih =>
    obtain ⟨k0, v0⟩ := kv
    by_cases h0 : k0 = k
    · subst h0
      simp [get?] at h
      simp [h]
    · simp [get?, h0] at h
      exact List.mem_cons_of_mem _ (ih h)

theorem get?_isSome_of_mem {m : PyDict α} {k : String}
    (h : k ∈ m.map (·.1)) : ∃ v, m.get? k = some v := by
  induction m with
  | nil => simp at h
  | cons kv rest ih =>
    obtain ⟨k0, v0⟩ := kv
    by_cases h0 : k0 = k
    · exact ⟨v0, by simp [get?, h0]⟩
    · have h' : k ∈ rest.map (·.1) := by
        rw [List.map_cons] at h
        rcases List.mem_cons.mp h with h1 | h1
        · exact absurd h1.symm h0
        · exact h1
      simpa [get?, h0] using ih h'

theorem set_eq_append_of_not_mem {m : PyDict α} {k : String} (v : α)
    (h : k ∉ m.map (·.1)) : m.set k v = m ++ [(k, v)] := by
  induction m with
  | nil => simp [set]
  | cons kv rest ih =>
    obtain ⟨k0, v0⟩ := kv
    simp only [List.map_cons, List.mem_cons] at h
    push_neg at h
    simp [set, Ne.symm h.1, ih h.2]

end PyDict

/-- Folding Python-dict assignments never changes keys that are not
assigned. -/
theorem chunkDict_get?_not_mem {chunk : List FlatLeaf} {p : String}
    (h : p ∉ chunk.map (·.path)) :
    ∀ m : PyDict FlatLeaf,
      (chunk.foldl (fun m it => m.set it.path it) m).get? p = m.get? p := by
  induction chunk with
  | nil => intro m; rfl
  | cons it rest ih =>
    intro m
    simp only [List.map_cons, List.mem_cons] at h
    push_neg at h
    rw [List.foldl_cons, ih h.2]
    exact PyDict.get?_set_ne m it (Ne.symm h.1)

/-- Folding Python-dict assignments over fresh, pairwise-distinct keys
just appends the pairs. -/
theorem foldl_set_eq_append {l : List FlatLeaf} :
    ∀ m : PyDict FlatLeaf, ((m.map (·.1)) ++ l.map (·.path)).Nodup →
      l.foldl (fun m it => m.set it.path it) m
        = m ++ l.map (fun it => (it.path, it)) := by
  induction l with
  | nil => simp
  | cons it rest ih =>
    intro m h
    have hk : it.path ∉ m.map (·.1) := by
      intro hmem
      exact (List.disjoint_of_nodup_append h) hmem (by simp)
    have h' : (((m ++ [(it.path, it)]).map (·.1)) ++ rest.map (·.path)).Nodup := by
      simpa [List.append_assoc] using h
    rw [List.foldl_cons, PyDict.set_eq_append_of_not_mem _ hk, ih _ h']
    simp

/-- With pairwise-distinct paths, `chunk_dict` is the chunk itself,
keyed by path. -/
theorem chunkDict_eq_of_nodup {chunk : List FlatLeaf}
    (hnd : (chunk.map (·.path)).Nodup) :
    chunkDict chunk = chunk.map (fun it => (it.path, it)) := by
  simpa using foldl_set_eq_append (l := chunk) [] (by simpa using hnd)

/-- Looking a member's path up in the path-keyed chunk returns that
member, when paths are pairwise distinct. -/
theorem get?_map_pair {chunk : List FlatLeaf}
    (hnd : (chunk.map (·.path)).Nodup) {it : FlatLeaf} (hmem : it ∈ chunk) :
    PyDict.get? (chunk.map (fun j => (j.path, j))) it.path = some it := by
  induction chunk with
  | nil => simp at hmem
  | cons it0 rest ih =>
    simp only [List.map_cons, List.nodup_cons] at hnd
    rcases List.mem_cons.mp hmem with h | h
    · subst h
      simp [PyDict.get?]
    · have hne : it0.path ≠ it.path := by
        intro he
        exact hnd.1 (he ▸ List.mem_map_of_mem (·.path) h)
      simp only [List.map_cons, PyDict.get?, if_neg hne]
      exact ih hnd.2 h

/-- With pairwise-distinct paths, `chunk_dict` maps every chunk item's
path to that item. -/
theorem chunkDict_get?_mem {chunk : List FlatLeaf}
    (hnd : (chunk.map (·.path)).Nodup) {it : FlatLeaf} (hmem : it ∈ chunk) :
    (chunkDict chunk).get? it.path = some it := by
  rw [chunkDict_eq_of_nodup hnd]
  exact get?_map_pair hnd hmem

/-- `recordItem` only writes the returned item's own path. -/
theorem recordItem_preserves {cd : PyDict FlatLeaf} {st : CoordSt}
    {it : TranslationItem} {p : String} (h : it.path ≠ p) :
    ((recordItem cd st it).translations.get? p = st.translations.get? p) ∧
    ((recordItem cd st it).status_map.get? p = st.status_map.get? p) := by
  unfold recordItem
  split <;> exact ⟨PyDict.get?_set_ne _ _ h, PyDict.get?_set_ne _ _ h⟩

/-- Recording a response that never mentions `p` leaves `p`'s
accumulator entries untouched. -/
theorem foldl_recordItem_preserves {items : List TranslationItem} {p : String}
    (h : p ∉ items.map (·.path)) (cd : PyDict FlatLeaf) :
    ∀ st : CoordSt,
      ((items.foldl (recordItem cd) st).translations.get? p
        = st.translations.get? p) ∧
      ((items.foldl (recordItem cd) st).status_map.get? p
        = st.status_map.get? p) := by
  induction items with
  | nil => intro st; exact ⟨rfl, rfl⟩
  | cons it rest ih =>
    intro st
    simp only [List.map_cons, List.mem_cons] at h
    push_neg at h
    obtain ⟨h1, h2⟩ := @recordItem_preserves cd st it p (Ne.symm h.1)
    rw [List.foldl_cons]
    obtain ⟨h3, h4⟩ := ih h.2 (recordItem cd st it)
    exact ⟨h3.trans h1, h4.trans h2⟩

/-- `recordItem` never touches `callIdx`, `events` or `dispatched`. -/
theorem foldl_recordItem_frame (cd : PyDict FlatLeaf) (items : List TranslationItem) :
    ∀ st : CoordSt,
      ((items.foldl (recordItem cd) st).callIdx = st.callIdx) ∧
      ((items.foldl (recordItem cd) st).events = st.events) ∧
      ((items.foldl (recordItem cd) st).dispatched = st.dispatched) := by
  induction items with
  | nil => intro st; exact ⟨rfl, rfl, rfl⟩
  | cons it rest ih =>
    intro st
    rw [List.foldl_cons]
    obtain ⟨h1, h2, h3⟩ := ih (recordItem cd st it)
    have : (recordItem cd st it).callIdx = st.callIdx ∧
        (recordItem cd st it).events = st.events ∧
        (recordItem cd st it).dispatched = st.dispatched := by
      unfold recordItem; split <;> exact ⟨rfl, rfl, rfl⟩
    exact ⟨h1.trans this.1, h2.trans this.2.1, h3.trans this.2.2⟩

/-- `forceResolve` leaves paths outside the pending list untouched. -/
theorem forceResolve_preserves {pending : List FlatLeaf} {p : String}
    (h : p ∉ pending.map (·.path)) :
    ∀ st : CoordSt,
      ((forceResolve st pending).translations.get? p = st.translations.get? p) ∧
      ((forceResolve st pending).status_map.get? p = st.status_map.get? p) := by
  induction pending with
  | nil => intro st; exact ⟨rfl, rfl⟩
  | cons it rest ih =>
    intro st
    simp only [List.map_cons, List.mem_cons] at h
    push_neg at h
    unfold forceResolve
    rw [List.foldl_cons]
    obtain ⟨h3, h4⟩ := ih h.2 _
    unfold forceResolve at h3 h4
    rw [h3, h4]
    exact ⟨PyDict.get?_set_ne _ _ (Ne.symm h.1), PyDict.get?_set_ne _ _ (Ne.symm h.1)⟩

/-- `forceResolve` resolves every pending item to its own (original)
text with status `missed`, when pending paths are pairwise distinct. -/
theorem forceResolve_get?_mem {pending : List FlatLeaf}
    (hnd : (pending.map (·.path)).Nodup) {it : FlatLeaf} (hmem : it ∈ pending) :
    ∀ st : CoordSt,
      ((forceResolve st pending).translations.get? it.path = some it.text) ∧
      ((forceResolve st pending).status_map.get? it.path = some .missed) := by
  induction pending with
  | nil => simp at hmem
  | cons it0 rest ih =>
    intro st
    simp only [List.map_cons, List.nodup_cons] at hnd
    unfold forceResolve
    rw [List.foldl_cons]
    rcases List.mem_cons.mp hmem with h | h
    · subst h
      obtain ⟨h1, h2⟩ := @forceResolve_preserves rest it.path hnd.1
        { st with translations := st.translations.set it.path it.text,
                  status_map := st.status_map.set it.path .missed }
      unfold forceResolve at h1 h2
      rw [h1, h2]
      exact ⟨PyDict.get?_set_self _ _ _, PyDict.get?_set_self _ _ _⟩
    · obtain ⟨h1, h2⟩ := ih hnd.2 h
        { st with translations := st.translations.set it0.path it0.text,
                  status_map := st.status_map.set it0.path .missed }
      unfold forceResolve at h1 h2
      exact ⟨h1, h2⟩

/-- The chunks produced by `chunkAcc` flatten back to the input. -/
theorem chunkAcc_flatten (cs : Nat) :
    ∀ (ys : List FlatLeaf) (k : Nat) (acc : List FlatLeaf),
      (chunkAcc cs acc k ys).flatten = acc.reverse ++ ys
  | [], _, acc => by simp [chunkAcc]
  | y :: ys, 0, acc => by
    simp [chunkAcc, chunkAcc_flatten cs ys (cs - 1) [y]]
  | y :: ys, k + 1, acc => by
    simp [chunkAcc, chunkAcc_flatten cs ys k (y :: acc)]

/-- Chunking then flattening is the identity: the chunks partition the
pending list. -/
theorem chunkList_flatten (cs : Nat) (xs : List FlatLeaf) :
    (chunkList cs xs).flatten = xs := by
  cases xs with
  | nil => rfl
  | cons x rest => simp [chunkList, chunkAcc_flatten]

/-! ## Success and termination lemmas for the coordinator -/

theorem processChunk_raise {behavior : CollabBehavior} {st : CoordSt}
    {chunk : List FlatLeaf} (h : behavior st.callIdx chunk = .raise) :
    processChunk behavior st chunk = .error .collabRaised := by
  unfold processChunk; rw [h]

theorem processChunk_noOutput {behavior : CollabBehavior} {st : CoordSt}
    {chunk : List FlatLeaf} (h : behavior st.callIdx chunk = .noOutput) :
    processChunk behavior st chunk =
      .ok ({ st with dispatched := st.dispatched ++ [chunk],
                     callIdx := st.callIdx + 1 }, chunk) := by
  unfold processChunk; rw [h]

theorem processChunk_okOutput {behavior : CollabBehavior} {st : CoordSt}
    {chunk : List FlatLeaf} {items : List TranslationItem}
    (h : behavior st.callIdx chunk = .ok items) :
    processChunk behavior st chunk =
      .ok ({ items.foldl (recordItem (chunkDict chunk))
               { st with dispatched := st.dispatched ++ [chunk] } with
             callIdx := st.callIdx + 1 },
           ((chunkDict chunk).filter
             (fun kv => !((items.map (·.path)).contains kv.1))).map (·.2)) := by
  unfold processChunk; rw [h]

theorem processChunk_ok_of_not_raise {behavior : CollabBehavior}
    (hb : ∀ n c, behavior n c ≠ .raise) (st : CoordSt) (chunk : List FlatLeaf) :
    ∃ st' req, processChunk behavior st chunk = .ok (st', req) := by
  cases h : behavior st.callIdx chunk with
  | raise => exact absurd h (hb _ _)
  | noOutput => exact ⟨_, _, processChunk_noOutput h⟩
  | ok items => exact ⟨_, _, processChunk_okOutput h⟩

theorem processChunks_ok_of_not_raise {behavior : CollabBehavior}
    (hb : ∀ n c, behavior n c ≠ .raise) (pn ti tc : Nat) :
    ∀ (chunks : List (List FlatLeaf)) (idx : Nat) (st : CoordSt) (acc : List FlatLeaf),
      ∃ st' pend, processChunks behavior pn ti tc idx st chunks acc = .ok (st', pend)
  | [], idx, st, acc => ⟨st, acc, rfl⟩
  | chunk :: rest, idx, st, acc => by
    obtain ⟨st1, req, h1⟩ := processChunk_ok_of_not_raise hb st chunk
    obtain ⟨st', pend, h2⟩ := processChunks_ok_of_not_raise hb pn ti tc rest (idx + 1)
      { st1 with events := st1.events ++
          [ProgressEvent.inProgress pn (idx + 1) tc ((idx + 1) * 100 / tc) ti
            st1.translations.length (st1.translations.length * 100 / ti)] }
      (acc ++ req)
    exact ⟨st', pend, by
      unfold processChunks
      rw [h1]
      simpa [Bind.bind, Except.bind] using h2⟩

theorem runPasses_ok_of_not_raise {behavior : CollabBehavior}
    (hb : ∀ n c, behavior n c ≠ .raise) {cs : Nat} (hcs : 0 < cs) (mp ti : Nat) :
    ∀ (n : Nat) (st : CoordSt) (pending : List FlatLeaf),
      ∃ st' pend', runPasses behavior cs mp ti n st pending = .ok (st', pend')
  | 0, st, pending => ⟨st, pending, rfl⟩
  | n + 1, st, pending => by
    by_cases hp : pending.isEmpty
    · exact ⟨st, pending, by unfold runPasses; simp [hp]⟩
    · obtain ⟨st1, newPending, h1⟩ := processChunks_ok_of_not_raise hb
        (mp - n) ti (chunkList cs pending).length (chunkList cs pending) 0 st []
      obtain ⟨st', pend', h2⟩ := runPasses_ok_of_not_raise hb hcs mp ti n
        { st1 with events := st1.events ++
            [ProgressEvent.passCompleted (mp - n) mp ti st1.translations.length
              (st1.translations.length * 100 / ti)] } newPending
      exact ⟨st', pend', by
        unfold runPasses
        simp only [hp, if_false, Nat.pos_iff_ne_zero.mp hcs, if_neg (Nat.pos_iff_ne_zero.mp hcs)]
        rw [h1]
        simpa [Bind.bind, Except.bind] using h2⟩

/-- Anatomy of a successful `translate_flattened_data` run: the result
list is always the input list mapped through `finalize` of the final
state. -/
theorem translate_ok_elim {input : List FlatLeaf} {cs mp : Nat}
    {behavior : CollabBehavior} {st : CoordSt} {res : List ResolvedLeaf}
    (h : translate_flattened_data input cs mp behavior = .ok (st, res)) :
    ∃ st1 pend,
      runPasses behavior cs mp input.length mp
        { translations := [], status_map := [], callIdx := 0,
          events := [.started input.length 0 0], dispatched := [] } input
        = .ok (st1, pend) ∧
      res = input.map (finalize (forceResolve st1 pend)) := by
  unfold translate_flattened_data at h
  dsimp only at h
  cases hr : runPasses behavior cs mp input.length mp
      { translations := [], status_map := [], callIdx := 0,
        events := [.started input.length 0 0], dispatched := [] } input with
  | error e => rw [hr] at h; simp [Bind.bind, Except.bind] at h
  | ok p =>
    obtain ⟨st1, pend⟩ := p
    rw [hr] at h
    simp only [Bind.bind, Except.bind, Except.ok.injEq, Prod.mk.injEq] at h
    exact ⟨st1, pend, rfl, h.2.symm⟩

theorem finalize_path (st : CoordSt) (it : FlatLeaf) : (finalize st it).path = it.path := rfl

theorem map_finalize_paths (st : CoordSt) (l : List FlatLeaf) :
    (l.map (finalize st)).map (·.path) = l.map (·.path) := by
  simp [List.map_map, Function.comp_def, finalize]

/-! ## C1: output cardinality, order and path-set match the input -/

/-- C1: whenever `translate_flattened_data` returns (for any input list
and any collaborator behavior, including one that never produces
output), the returned sequence carries exactly one `ResolvedLeaf` per
input `FlatLeaf`: the path lists agree position by position, so length,
path-set and original order are all preserved. -/
theorem translate_preserves_paths (input : List FlatLeaf) (cs mp : Nat)
    (behavior : CollabBehavior) (st : CoordSt) (res : List ResolvedLeaf)
    (h : translate_flattened_data input cs mp behavior = .ok (st, res)) :
    res.map (·.path) = input.map (·.path) ∧ res.length = input.length := by
  obtain ⟨st1, pend, -, hres⟩ := translate_ok_elim h
  subst hres
  exact ⟨map_finalize_paths _ _, List.length_map _ _⟩

/-- C1 witness: a concrete run (one leaf, collaborator that never
answers) returning a one-element result with the same path. -/
theorem translate_preserves_paths_witness :
    translate_flattened_data [⟨"a", "x"⟩] 1 1 alwaysNoOutput =
      .ok ({ translations := [("a", "x")], status_map := [("a", .missed)], callIdx := 1,
             events := [.started 1 0 0, .inProgress 1 1 1 100 1 0 0,
                        .passCompleted 1 1 1 0 0, .completed 1 1 0 0 1 100],
             dispatched := [[⟨"a", "x"⟩]] },
           [⟨"a", "x", .missed⟩]) ∧
    ([(⟨"a", "x", .missed⟩ : ResolvedLeaf)].map (·.path)
      = [(⟨"a", "x"⟩ : FlatLeaf)].map (·.path)) := by
  constructor
  · rfl
  · exact (translate_preserves_paths [⟨"a", "x"⟩] 1 1 alwaysNoOutput
      { translations := [("a", "x")], status_map := [("a", .missed)], callIdx := 1,
        events := [.started 1 0 0, .inProgress 1 1 1 100 1 0 0,
                   .passCompleted 1 1 1 0 0, .completed 1 1 0 0 1 100],
        dispatched := [[⟨"a", "x"⟩]] }
      [⟨"a", "x", .missed⟩] rfl).1

/-! ## C2 amended: termination and failure handling -/

/-- C2 amended: a collaborator call that returns no valid structured
output is handled per-batch — the full chunk is re-queued for the next
pass — and for every collaborator behavior that never raises (with a
positive chunk size) `translate_flattened_data` terminates with a
complete result covering every input path in order.  (A raising call,
however, is not caught: see the counterexample.) -/
theorem translate_total_without_raise (input : List FlatLeaf) (cs mp : Nat)
    (behavior : CollabBehavior) (hcs : 0 < cs)
    (hb : ∀ n c, behavior n c ≠ .raise) :
    (∃ st res, translate_flattened_data input cs mp behavior = .ok (st, res) ∧
       res.map (·.path) = input.map (·.path)) ∧
    (∀ st chunk, behavior st.callIdx chunk = .noOutput →
       processChunk behavior st chunk =
         .ok ({ st with dispatched := st.dispatched ++ [chunk],
                        callIdx := st.callIdx + 1 }, chunk)) := by
  constructor
  · obtain ⟨st1, pend, h1⟩ := runPasses_ok_of_not_raise hb hcs mp input.length mp
      { translations := [], status_map := [], callIdx := 0,
        events := [.started input.length 0 0], dispatched := [] } input
    cases hT : translate_flattened_data input cs mp behavior with
    | error e =>
      exfalso
      unfold translate_flattened_data at hT
      dsimp only at hT
      rw [h1] at hT
      simp [Bind.bind, Except.bind] at hT
    | ok p =>
      obtain ⟨st, res⟩ := p
      obtain ⟨st1', pend', -, hres⟩ := translate_ok_elim hT
      exact ⟨st, res, rfl, by rw [hres]; exact map_finalize_paths _ _⟩
  · exact fun st chunk h => processChunk_noOutput h

/-- C2 witness: the amended statement instantiated at a concrete input
with the collaborator that never produces output (which never
raises). -/
theorem translate_total_without_raise_witness :
    (∃ st res, translate_flattened_data [⟨"a", "x"⟩] 1 1 alwaysNoOutput = .ok (st, res) ∧
       res.map (·.path) = [(⟨"a", "x"⟩ : FlatLeaf)].map (·.path)) ∧
    (∀ st chunk, alwaysNoOutput st.callIdx chunk = .noOutput →
       processChunk alwaysNoOutput st chunk =
         .ok ({ st with dispatched := st.dispatched ++ [chunk],
                        callIdx := st.callIdx + 1 }, chunk)) :=
  translate_total_without_raise [⟨"a", "x"⟩] 1 1 alwaysNoOutput (by decide)
    (fun _ _ h => CollabOutcome.noConfusion h)

/-! ## C3: never-returned paths end up Missed with original text -/

/-- A path the collaborator never mentions is never written to the
accumulators by one chunk step, and the chunk entry carrying it is
always re-queued; re-queued items are a sublist of the chunk. -/
theorem processChunk_P {behavior : CollabBehavior} {P : String}
    (hb : ∀ n c, behavior n c ≠ .raise)
    (hP : ∀ n c items, behavior n c = .ok items → P ∉ items.map (·.path))
    (st : CoordSt) {chunk : List FlatLeaf} (hnd : (chunk.map (·.path)).Nodup) :
    ∃ st' req, processChunk behavior st chunk = .ok (st', req) ∧
      (st'.translations.get? P = st.translations.get? P) ∧
      (st'.status_map.get? P = st.status_map.get? P) ∧
      req.Sublist chunk ∧
      (∀ it ∈ chunk, it.path = P → it ∈ req) := by
  cases hcall : behavior st.callIdx chunk with
  | raise => exact absurd hcall (hb _ _)
  | noOutput =>
    exact ⟨_, _, processChunk_noOutput hcall, rfl, rfl, List.Sublist.refl _,
      fun it hit _ => hit⟩
  | ok items =>
    have hPitems : P ∉ items.map (·.path) := hP _ _ _ hcall
    have hc : ((items.map (·.path)).contains P) = false := by
      cases hcc : ((items.map (·.path)).contains P) with
      | false => rfl
      | true =>
        obtain ⟨p', hp', hbeq⟩ := List.contains_iff_exists_mem_beq.mp hcc
        exact absurd (by rwa [eq_of_beq hbeq]) hPitems
    refine ⟨_, _, processChunk_okOutput hcall, ?_, ?_, ?_, ?_⟩
    · exact (foldl_recordItem_preserves hPitems _ _).1
    · exact (foldl_recordItem_preserves hPitems _ _).2
    · rw [chunkDict_eq_of_nodup hnd]
      have h1 := (List.filter_sublist (l := chunk.map (fun j => (j.path, j)))
        (p := fun kv => !((items.map (·.path)).contains kv.1))).map (·.2)
      have h3 : (chunk.map (fun j => (j.path, j))).map (·.2) = chunk := by
        simp [List.map_map, Function.comp_def]
      rwa [h3] at h1
    · intro it hit hpath
      rw [chunkDict_eq_of_nodup hnd]
      have hpair : (it.path, it) ∈ chunk.map (fun j => (j.path, j)) :=
        List.mem_map_of_mem _ hit
      have hmemf : (it.path, it) ∈ (chunk.map (fun j => (j.path, j))).filter
          (fun kv => !((items.map (·.path)).contains kv.1)) := by
        refine List.mem_filter.mpr ⟨hpair, ?_⟩
        show (!((items.map (·.path)).contains it.path)) = true
        rw [hpath, hc]
        rfl
      exact (List.mem_map_of_mem (·.2) hmemf : _)

/-- The chunk loop preserves the `P`-untouched invariant; re-queued
items form a sublist of the processed material and keep every entry
whose path is `P`. -/
theorem processChunks_P {behavior : CollabBehavior} {P : String}
    (hb : ∀ n c, behavior n c ≠ .raise)
    (hP : ∀ n c items, behavior n c = .ok items → P ∉ items.map (·.path))
    (pn ti tc : Nat) :
    ∀ (chunks : List (List FlatLeaf)) (idx : Nat) (st : CoordSt) (acc : List FlatLeaf),
      ((acc ++ chunks.flatten).map (·.path)).Nodup →
      ∃ st' pend, processChunks behavior pn ti tc idx st chunks acc = .ok (st', pend) ∧
        (st'.translations.get? P = st.translations.get? P) ∧
        (st'.status_map.get? P = st.status_map.get? P) ∧
        pend.Sublist (acc ++ chunks.flatten) ∧
        (∀ it ∈ acc ++ chunks.flatten, it.path = P → it ∈ pend)
  | [], idx, st, acc => by
    intro hnd
    refine ⟨st, acc, rfl, rfl, rfl, ?_, ?_⟩
    · simp
    · simpa using fun it hit _ => hit
  | chunk :: rest, idx, st, acc => by
    intro hnd
    have hndchunk : (chunk.map (·.path)).Nodup := by
      have := hnd
      rw [List.flatten_cons, List.map_append, List.map_append] at this
      exact (this.of_append_right).of_append_left
    obtain ⟨st1, req, h1, ht1, hs1, hsub1, hkeep1⟩ :=
      processChunk_P hb hP st hndchunk
    have hsubacc : ((acc ++ req) ++ rest.flatten).Sublist
        (acc ++ (chunk :: rest).flatten) := by
      rw [List.flatten_cons, ← List.append_assoc]
      exact ((hsub1.append_left acc).append_right _)
    have hnd' : (((acc ++ req) ++ rest.flatten).map (·.path)).Nodup :=
      (hnd.sublist (hsubacc.map _))
    obtain ⟨st', pend, h2, ht2, hs2, hsub2, hkeep2⟩ :=
      processChunks_P hb hP pn ti tc rest (idx + 1)
        { st1 with events := st1.events ++
            [ProgressEvent.inProgress pn (idx + 1) tc ((idx + 1) * 100 / tc) ti
              st1.translations.length (st1.translations.length * 100 / ti)] }
        (acc ++ req) hnd'
    refine ⟨st', pend, ?_, ht2.trans ht1, hs2.trans hs1,
      hsub2.trans hsubacc, ?_⟩
    · unfold processChunks
      rw [h1]
      simpa [Bind.bind, Except.bind] using h2
    · intro it hit hpath
      rw [List.flatten_cons, ← List.append_assoc] at hit
      rcases List.mem_append.mp hit with h | h
      · rcases List.mem_append.mp h with h' | h'
        · exact hkeep2 it (List.mem_append.mpr (.inl (List.mem_append.mpr (.inl h')))) hpath
        · have : it ∈ req := hkeep1 it h' hpath
          exact hkeep2 it (List.mem_append.mpr (.inl (List.mem_append.mpr (.inr this)))) hpath
      · exact hkeep2 it (List.mem_append.mpr (.inr h)) hpath

/-- The pass loop keeps a never-returned path `P` pending (with its
original record) and untouched in the accumulators, through every
pass. -/
theorem runPasses_P {behavior : CollabBehavior} {P : String}
    (hb : ∀ n c, behavior n c ≠ .raise)
    (hP : ∀ n c items, behavior n c = .ok items → P ∉ items.map (·.path))
    {cs : Nat} (hcs : 0 < cs) (mp ti : Nat) :
    ∀ (n : Nat) (st : CoordSt) (pending : List FlatLeaf),
      ((pending.map (·.path)).Nodup) →
      ∃ st' pend', runPasses behavior cs mp ti n st pending = .ok (st', pend') ∧
        (st'.translations.get? P = st.translations.get? P) ∧
        (st'.status_map.get? P = st.status_map.get? P) ∧
        ((pend'.map (·.path)).Nodup) ∧
        (∀ it ∈ pending, it.path = P → it ∈ pend')
  | 0, st, pending => fun hnd => ⟨st, pending, rfl, rfl, rfl, hnd, fun it hit _ => hit⟩
  | n + 1, st, pending => by
    intro hnd
    by_cases hp : pending.isEmpty
    · refine ⟨st, pending, ?_, rfl, rfl, hnd, fun it hit _ => hit⟩
      unfold runPasses
      simp [hp]
    · have hflat : ((([] : List FlatLeaf) ++ (chunkList cs pending).flatten).map
          (·.path)).Nodup := by
        rw [List.nil_append, chunkList_flatten]
        exact hnd
      obtain ⟨st1, pend1, h1, ht1, hs1, hsub1, hkeep1⟩ :=
        processChunks_P hb hP (mp - n) ti (chunkList cs pending).length
          (chunkList cs pending) 0 st [] hflat
      have hnd1 : ((pend1.map (·.path)).Nodup) := by
        refine hnd.sublist ?_
        have := hsub1.map (·.path)
        rwa [List.nil_append, chunkList_flatten] at this
      obtain ⟨st', pend', h2, ht2, hs2, hnd2, hkeep2⟩ :=
        runPasses_P hb hP hcs mp ti n
          { st1 with events := st1.events ++
              [ProgressEvent.passCompleted (mp - n) mp ti st1.translations.length
                (st1.translations.length * 100 / ti)] } pend1 hnd1
      refine ⟨st', pend', ?_, ht2.trans ht1, hs2.trans hs1, hnd2, ?_⟩
      · unfold runPasses
        simp only [hp, if_false, if_neg (Nat.pos_iff_ne_zero.mp hcs)]
        rw [h1]
        simpa [Bind.bind, Except.bind] using h2
      · intro it hit hpath
        refine hkeep2 it ?_ hpath
        refine hkeep1 it ?_ hpath
        rw [List.nil_append, chunkList_flatten]
        exact hit

/-- C3: if the collaborator never returns a response item for path `P`
in any pass (and never raises), then for a pending list with
pairwise-distinct paths, the leaf with path `P` comes back with its
original input text and status `missed` after all passes. -/
theorem translate_missed_fallback (input : List FlatLeaf) (cs mp : Nat)
    (behavior : CollabBehavior) (P : String)
    (hcs : 0 < cs)
    (hb : ∀ n c, behavior n c ≠ .raise)
    (hP : ∀ n c items, behavior n c = .ok items → P ∉ items.map (·.path))
    (hnd : (input.map (·.path)).Nodup) :
    ∃ st res, translate_flattened_data input cs mp behavior = .ok (st, res) ∧
      ∀ pr ∈ input.zip res, pr.1.path = P → pr.2 = ⟨P, pr.1.text, .missed⟩ := by
  obtain ⟨st1, pend1, h1, ht1, hs1, hnd1, hkeep1⟩ := runPasses_P hb hP hcs mp
    input.length mp
    { translations := [], status_map := [], callIdx := 0,
      events := [.started input.length 0 0], dispatched := [] } input hnd
  cases hT : translate_flattened_data input cs mp behavior with
  | error e =>
    exfalso
    unfold translate_flattened_data at hT
    dsimp only at hT
    rw [h1] at hT
    simp [Bind.bind, Except.bind] at hT
  | ok p =>
    obtain ⟨st, res⟩ := p
    obtain ⟨st1', pend1', h1', hres⟩ := translate_ok_elim hT
    rw [h1] at h1'
    obtain ⟨hst1, hpend1⟩ : st1 = st1' ∧ pend1 = pend1' := by
      have := h1'
      simp only [Except.ok.injEq, Prod.mk.injEq] at this
      exact ⟨this.1, this.2⟩
    subst hst1; subst hpend1
    refine ⟨st, res, rfl, ?_⟩
    intro pr hpr hpath
    subst hres
    have hzip : input.zip (input.map (finalize (forceResolve st1 pend1)))
        = input.map (fun it => (it, finalize (forceResolve st1 pend1) it)) := by
      have hz := List.zip_map' id (finalize (forceResolve st1 pend1)) input
      rw [List.map_id] at hz
      simpa [id] using hz
    rw [hzip] at hpr
    obtain ⟨it, hit, hpr'⟩ := List.mem_map.mp hpr
    subst hpr'
    have hpath' : it.path = P := hpath
    have hpend : it ∈ pend1 := hkeep1 it hit hpath'
    obtain ⟨hft, hfs⟩ := forceResolve_get?_mem hnd1 hpend st1
    show finalize (forceResolve st1 pend1) it = ⟨P, it.text, TranslationStatus.missed⟩
    unfold finalize
    rw [PyDict.getD, PyDict.getD, hft, hfs, hpath']
    rfl

/-- C3 witness: one leaf, a collaborator that never returns anything;
the leaf comes back with its original text and status `missed`. -/
theorem translate_missed_fallback_witness :
    ∃ st res, translate_flattened_data [⟨"a", "x"⟩] 1 2 alwaysNoOutput = .ok (st, res) ∧
      ∀ pr ∈ ([(⟨"a", "x"⟩ : FlatLeaf)]).zip res, pr.1.path = "a" →
        pr.2 = ⟨"a", pr.1.text, .missed⟩ :=
  translate_missed_fallback [⟨"a", "x"⟩] 1 2 alwaysNoOutput "a" (by decide)
    (fun _ _ h => CollabOutcome.noConfusion h)
    (fun _ _ _ h => CollabOutcome.noConfusion h)
    (by decide)

/-! ## C7 amended: NotNeeded leaves carry their original text -/

/-- The original text of path `p` in the input list (the text of the
first — with distinct paths, the only — input leaf at `p`). -/
def origOf (input : List FlatLeaf) (p : String) : Option String :=
  (input.find? (fun it => it.path == p)).map (·.text)

/-- With pairwise-distinct paths, `find?` by path returns the member
itself. -/
theorem find?_path {input : List FlatLeaf} (hnd : (input.map (·.path)).Nodup)
    {it : FlatLeaf} (hmem : it ∈ input) :
    input.find? (fun j => j.path == it.path) = some it := by
  induction input with
  | nil => simp at hmem
  | cons it0 rest ih =>
    simp only [List.map_cons, List.nodup_cons] at hnd
    rcases List.mem_cons.mp hmem with h | h
    · subst h
      simp [List.find?]
    · have hne : (it0.path == it.path) = false := by
        simp only [beq_eq_false_iff_ne, ne_eq]
        intro he
        exact hnd.1 (he ▸ List.mem_map_of_mem (·.path) h)
      simp only [List.find?, hne]
      exact ih hnd.2 h

/-- The accumulator invariant behind C7: every path currently marked
`notNeeded` resolves to the original input text of that path. -/
def NNInv (input : List FlatLeaf) (st : CoordSt) : Prop :=
  ∀ p, st.status_map.get? p = some .notNeeded →
    st.translations.get? p = origOf input p

/-- Recording one well-formed response item preserves the `notNeeded`
invariant, provided the item's path belongs to the processed chunk and
the chunk is a sub-sequence of the (distinct-path) input. -/
theorem recordItem_NN {input chunk : List FlatLeaf}
    (hnd : (input.map (·.path)).Nodup) (hsub : chunk.Sublist input)
    {it : TranslationItem} (hin : it.path ∈ chunk.map (·.path))
    {st : CoordSt} (hNN : NNInv input st) :
    NNInv input (recordItem (chunkDict chunk) st it) := by
  have hndc : (chunk.map (·.path)).Nodup := hnd.sublist (hsub.map _)
  intro p hp
  by_cases hpq : it.path = p
  · subst hpq
    unfold recordItem at hp ⊢
    by_cases hcnd : (it.should_translate && truthyText it.translated_text) = true
    · rw [if_pos hcnd] at hp
      dsimp only at hp
      rw [PyDict.get?_set_self] at hp
      exact absurd (Option.some.inj hp) (by intro h; cases h)
    · rw [if_neg hcnd] at hp ⊢
      dsimp only at hp ⊢
      rw [PyDict.get?_set_self]
      obtain ⟨cit, hcit, hcp⟩ := List.mem_map.mp hin
      have hcd : (chunkDict chunk).get? it.path = some cit := by
        rw [← hcp]
        exact chunkDict_get?_mem hndc hcit
      rw [hcd]
      have : origOf input it.path = some cit.text := by
        unfold origOf
        rw [← hcp, find?_path hnd (hsub.subset hcit)]
        rfl
      rw [this]
      rfl
  · obtain ⟨h1, h2⟩ := @recordItem_preserves (chunkDict chunk) st it p hpq
    rw [h2] at hp
    rw [h1]
    exact hNN p hp

/-- Folding a whole response preserves the `notNeeded` invariant. -/
theorem foldl_recordItem_NN {input chunk : List FlatLeaf}
    (hnd : (input.map (·.path)).Nodup) (hsub : chunk.Sublist input)
    {items : List TranslationItem}
    (hin : ∀ it ∈ items, it.path ∈ chunk.map (·.path)) :
    ∀ st : CoordSt, NNInv input st →
      NNInv input (items.foldl (recordItem (chunkDict chunk)) st) := by
  induction items with
  | nil => exact fun st h => h
  | cons it rest ih =>
    intro st hNN
    rw [List.foldl_cons]
    exact ih (fun j hj => hin j (List.mem_cons_of_mem _ hj)) _
      (recordItem_NN hnd hsub (hin it (List.mem_cons_self _ _)) hNN)

/-- `forceResolve` preserves the `notNeeded` invariant: it marks the
paths it touches `missed`. -/
theorem forceResolve_NN {input : List FlatLeaf} :
    ∀ (pending : List FlatLeaf) (st : CoordSt), NNInv input st →
      NNInv input (forceResolve st pending)
  | [], st, h => h
  | it0 :: rest, st, h => by
    unfold forceResolve
    rw [List.foldl_cons]
    refine forceResolve_NN rest _ ?_
    intro p hp
    by_cases hpq : it0.path = p
    · subst hpq
      simp only at hp
      rw [PyDict.get?_set_self] at hp
      exact absurd (Option.some.inj hp) (by intro h'; cases h')
    · simp only at hp ⊢
      rw [PyDict.get?_set_ne _ _ hpq] at hp
      rw [PyDict.get?_set_ne _ _ hpq]
      exact h p hp

/-- One chunk step preserves the `notNeeded` invariant when the
response mentions only requested paths. -/
theorem processChunk_NN {behavior : CollabBehavior}
    (hb : ∀ n c, behavior n c ≠ .raise)
    (hnh : ∀ n c items, behavior n c = .ok items →
      ∀ it ∈ items, it.path ∈ c.map (·.path))
    {input : List FlatLeaf} (hnd : (input.map (·.path)).Nodup)
    (st : CoordSt) {chunk : List FlatLeaf} (hsub : chunk.Sublist input)
    (hNN : NNInv input st) :
    ∃ st' req, processChunk behavior st chunk = .ok (st', req) ∧
      NNInv input st' ∧ req.Sublist chunk := by
  cases hcall : behavior st.callIdx chunk with
  | raise => exact absurd hcall (hb _ _)
  | noOutput =>
    exact ⟨_, _, processChunk_noOutput hcall, hNN, List.Sublist.refl _⟩
  | ok items =>
    refine ⟨_, _, processChunk_okOutput hcall, ?_, ?_⟩
    · exact foldl_recordItem_NN hnd hsub (hnh _ _ _ hcall) _ hNN
    · have h1 := (List.filter_sublist (l := chunk.map (fun j => (j.path, j)))
        (p := fun kv => !((items.map (·.path)).contains kv.1))).map (·.2)
      have h3 : (chunk.map (fun j => (j.path, j))).map (·.2) = chunk := by
        simp [List.map_map, Function.comp_def]
      rw [chunkDict_eq_of_nodup (hnd.sublist (hsub.map _))]
      rwa [h3] at h1

/-- The chunk loop preserves the `notNeeded` invariant and returns a
pending list drawn from the processed material. -/
theorem processChunks_NN {behavior : CollabBehavior}
    (hb : ∀ n c, behavior n c ≠ .raise)
    (hnh : ∀ n c items, behavior n c = .ok items →
      ∀ it ∈ items, it.path ∈ c.map (·.path))
    {input : List FlatLeaf} (hnd : (input.map (·.path)).Nodup)
    (pn ti tc : Nat) :
    ∀ (chunks : List (List FlatLeaf)) (idx : Nat) (st : CoordSt) (acc : List FlatLeaf),
      (acc ++ chunks.flatten).Sublist input → NNInv input st →
      ∃ st' pend, processChunks behavior pn ti tc idx st chunks acc = .ok (st', pend) ∧
        NNInv input st' ∧ pend.Sublist (acc ++ chunks.flatten)
  | [], idx, st, acc => by
    intro hsub hNN
    exact ⟨st, acc, rfl, hNN, by simp⟩
  | chunk :: rest, idx, st, acc => by
    intro hsub hNN
    have hchunk : chunk.Sublist input := by
      refine List.Sublist.trans ?_ hsub
      rw [List.flatten_cons]
      exact (List.sublist_append_left _ _).trans (List.sublist_append_right _ _)
    obtain ⟨st1, req, h1, hNN1, hsub1⟩ := processChunk_NN hb hnh hnd st hchunk hNN
    have hsubacc : ((acc ++ req) ++ rest.flatten).Sublist
        (acc ++ (chunk :: rest).flatten) := by
      rw [List.flatten_cons, ← List.append_assoc]
      exact ((hsub1.append_left acc).append_right _)
    obtain ⟨st', pend, h2, hNN2, hsub2⟩ :=
      processChunks_NN hb hnh hnd pn ti tc rest (idx + 1)
        { st1 with events := st1.events ++
            [ProgressEvent.inProgress pn (idx + 1) tc ((idx + 1) * 100 / tc) ti
              st1.translations.length (st1.translations.length * 100 / ti)] }
        (acc ++ req) (hsubacc.trans hsub) hNN1
    refine ⟨st', pend, ?_, hNN2, hsub2.trans hsubacc⟩
    unfold processChunks
    rw [h1]
    simpa [Bind.bind, Except.bind] using h2

/-- The pass loop preserves the `notNeeded` invariant. -/
theorem runPasses_NN {behavior : CollabBehavior}
    (hb : ∀ n c, behavior n c ≠ .raise)
    (hnh : ∀ n c items, behavior n c = .ok items →
      ∀ it ∈ items, it.path ∈ c.map (·.path))
    {input : List FlatLeaf} (hnd : (input.map (·.path)).Nodup)
    {cs : Nat} (hcs : 0 < cs) (mp ti : Nat) :
    ∀ (n : Nat) (st : CoordSt) (pending : List FlatLeaf),
      pending.Sublist input → NNInv input st →
      ∃ st' pend', runPasses behavior cs mp ti n st pending = .ok (st', pend') ∧
        NNInv input st' ∧ pend'.Sublist input
  | 0, st, pending => fun hsub hNN => ⟨st, pending, rfl, hNN, hsub⟩
  | n + 1, st, pending => by
    intro hsub hNN
    by_cases hp : pending.isEmpty
    · exact ⟨st, pending, by unfold runPasses; simp [hp], hNN, hsub⟩
    · have hflat : (([] : List FlatLeaf) ++ (chunkList cs pending).flatten).Sublist
          input := by
        rw [List.nil_append, chunkList_flatten]
        exact hsub
      obtain ⟨st1, pend1, h1, hNN1, hsub1⟩ :=
        processChunks_NN hb hnh hnd (mp - n) ti (chunkList cs pending).length
          (chunkList cs pending) 0 st [] hflat hNN
      have hsub1' : pend1.Sublist input := by
        refine List.Sublist.trans ?_ hsub
        have := hsub1
        rwa [List.nil_append, chunkList_flatten] at this
      obtain ⟨st', pend', h2, hNN2, hsub2⟩ :=
        runPasses_NN hb hnh hnd hcs mp ti n
          { st1 with events := st1.events ++
              [ProgressEvent.passCompleted (mp - n) mp ti st1.translations.length
                (st1.translations.length * 100 / ti)] } pend1 hsub1' hNN1
      refine ⟨st', pend', ?_, hNN2, hsub2⟩
      unfold runPasses
      simp only [hp, if_false, if_neg (Nat.pos_iff_ne_zero.mp hcs)]
      rw [h1]
      simpa [Bind.bind, Except.bind] using h2

/-- C7 amended: when every response item refers to a path of the batch
it answers (no hallucinated paths) and the collaborator never raises,
every output leaf whose final status is `notNeeded` carries its
original input text (inputs with pairwise-distinct paths, positive
chunk size). -/
theorem translate_notNeeded_keeps_original (input : List FlatLeaf) (cs mp : Nat)
    (behavior : CollabBehavior) (hcs : 0 < cs)
    (hb : ∀ n c, behavior n c ≠ .raise)
    (hnh : ∀ n c items, behavior n c = .ok items →
      ∀ it ∈ items, it.path ∈ c.map (·.path))
    (hnd : (input.map (·.path)).Nodup) :
    ∃ st res, translate_flattened_data input cs mp behavior = .ok (st, res) ∧
      ∀ pr ∈ input.zip res, pr.2.translation_status = .notNeeded →
        pr.2.text = pr.1.text := by
  have hNN0 : NNInv input
      { translations := [], status_map := [], callIdx := 0,
        events := [.started input.length 0 0], dispatched := [] } := by
    intro p hp
    cases hp
  obtain ⟨st1, pend1, h1, hNN1, hsub1⟩ := runPasses_NN hb hnh hnd hcs mp
    input.length mp _ input (List.Sublist.refl input) hNN0
  cases hT : translate_flattened_data input cs mp behavior with
  | error e =>
    exfalso
    unfold translate_flattened_data at hT
    dsimp only at hT
    rw [h1] at hT
    simp [Bind.bind, Except.bind] at hT
  | ok p =>
    obtain ⟨st, res⟩ := p
    obtain ⟨st1', pend1', h1', hres⟩ := translate_ok_elim hT
    rw [h1] at h1'
    obtain ⟨hst1, hpend1⟩ : st1 = st1' ∧ pend1 = pend1' := by
      have := h1'
      simp only [Except.ok.injEq, Prod.mk.injEq] at this
      exact ⟨this.1, this.2⟩
    subst hst1; subst hpend1
    refine ⟨st, res, rfl, ?_⟩
    intro pr hpr hstatus
    subst hres
    have hNN2 : NNInv input (forceResolve st1 pend1) := forceResolve_NN pend1 st1 hNN1
    have hzip : input.zip (input.map (finalize (forceResolve st1 pend1)))
        = input.map (fun it => (it, finalize (forceResolve st1 pend1) it)) := by
      have hz := List.zip_map' id (finalize (forceResolve st1 pend1)) input
      rw [List.map_id] at hz
      simpa [id] using hz
    rw [hzip] at hpr
    obtain ⟨it, hit, hpr'⟩ := List.mem_map.mp hpr
    subst hpr'
    have hstat : (forceResolve st1 pend1).status_map.getD it.path .missed
        = .notNeeded := hstatus
    unfold PyDict.getD at hstat
    have hsome : (forceResolve st1 pend1).status_map.get? it.path
        = some .notNeeded := by
      cases hg : (forceResolve st1 pend1).status_map.get? it.path with
      | none =>
        rw [hg] at hstat
        exact absurd hstat (by intro h'; cases h')
      | some s =>
        rw [hg, Option.getD_some] at hstat
        rw [hstat]
    have htr := hNN2 it.path hsome
    have horig : origOf input it.path = some it.text := by
      unfold origOf
      rw [find?_path hnd hit]
      rfl
    show (forceResolve st1 pend1).translations.getD it.path it.text = it.text
    unfold PyDict.getD
    rw [htr, horig]
    rfl

/-- C7 witness: the amended statement at a concrete two-leaf input with
the echoing collaborator, whose responses mention exactly the requested
paths. -/
theorem translate_notNeeded_keeps_original_witness :
    ∃ st res, translate_flattened_data [⟨"a", "x"⟩, ⟨"b", "y"⟩] 1 1 echoNotNeeded
        = .ok (st, res) ∧
      ∀ pr ∈ ([(⟨"a", "x"⟩ : FlatLeaf), ⟨"b", "y"⟩]).zip res,
        pr.2.translation_status = .notNeeded → pr.2.text = pr.1.text :=
  translate_notNeeded_keeps_original [⟨"a", "x"⟩, ⟨"b", "y"⟩] 1 1 echoNotNeeded
    (by decide)
    (fun _ _ h => CollabOutcome.noConfusion h)
    (fun n c items h => by
      cases h
      intro it hit
      obtain ⟨j, hj, rfl⟩ := List.mem_map.mp hit
      exact List.mem_map_of_mem _ hj)
    (by decide)

/-! ## C9: rebuild is a pure leaf substitution -/

mutual
/-- The structural skeleton of a value: every scalar replaced by
`null`, all keys, nesting and ordering kept. -/
def maskVal : JValue → JValue
  | .obj fields => .obj (maskFields fields)
  | .arr items => .arr (maskItems items)
  | _ => .null

/-- Skeleton of an object body. -/
def maskFields : JFields → JFields
  | .nil => .nil
  | .cons key value rest => .cons key (maskVal value) (maskFields rest)

/-- Skeleton of an array body. -/
def maskItems : JList → JList
  | .nil => .nil
  | .cons value rest => .cons (maskVal value) (maskItems rest)
end

mutual
/-- All scalar leaves (including nulls) of an object body, with their
flatten/rebuild addresses, in traversal order. -/
def leafAddrsFields : JFields → String → List (String × JValue)
  | .nil, _ => []
  | .cons key value rest, path =>
    (match value with
     | .obj fs => leafAddrsFields fs (joinKey path key)
     | .arr its => leafAddrsItems its (joinKey path key) 0
     | v => [(joinKey path key, v)]) ++ leafAddrsFields rest path

/-- All scalar leaves of an array body, with addresses. -/
def leafAddrsItems : JList → String → Nat → List (String × JValue)
  | .nil, _, _ => []
  | .cons item rest, path, i =>
    (match item with
     | .obj fs => leafAddrsFields fs (joinIdx path i)
     | .arr its => leafAddrsItems its (joinIdx path i) 0
     | v => [(joinIdx path i, v)]) ++ leafAddrsItems rest path (i + 1)
end

/-- How one leaf is rewritten by the rebuild walk: replaced by the
looked-up text when its address is in the lookup, untouched
otherwise. -/
def substLeaf (m : PyDict String) (pv : String × JValue) : String × JValue :=
  (pv.1, match m.get? pv.1 with
         | some t => JValue.str t
         | none => pv.2)

mutual
/-- Frame property of the object walk: the skeleton is untouched and
each scalar leaf is rewritten exactly by `substLeaf`. -/
theorem rebuildFields_frame (m : PyDict String) :
    ∀ (fields : JFields) (path : String),
      maskFields (rebuildFields m fields path) = maskFields fields ∧
      leafAddrsFields (rebuildFields m fields path) path
        = (leafAddrsFields fields path).map (substLeaf m)
  | .nil, _ => ⟨rfl, rfl⟩
  | .cons key value rest, path => by
    obtain ⟨hm, hl⟩ := rebuildFields_frame m rest path
    cases value with
    | obj fs =>
      obtain ⟨hm1, hl1⟩ := rebuildFields_frame m fs (joinKey path key)
      exact ⟨by simp [rebuildFields, maskFields, maskVal, hm, hm1],
        by simp [rebuildFields, leafAddrsFields, hl, hl1]⟩
    | arr its =>
      obtain ⟨hm1, hl1⟩ := rebuildItems_frame m its (joinKey path key) 0
      exact ⟨by simp [rebuildFields, maskFields, maskVal, hm, hm1],
        by simp [rebuildFields, leafAddrsFields, hl, hl1]⟩
    | null =>
      refine ⟨?_, ?_⟩
      · cases hg : m.get? (joinKey path key) <;>
          simp [rebuildFields, maskFields, maskVal, hm, hg]
      · cases hg : m.get? (joinKey path key) <;>
          simp [rebuildFields, leafAddrsFields, hl, substLeaf, hg]
    | bool b =>
      refine ⟨?_, ?_⟩
      · cases hg : m.get? (joinKey path key) <;>
          simp [rebuildFields, maskFields, maskVal, hm, hg]
      · cases hg : m.get? (joinKey path key) <;>
          simp [rebuildFields, leafAddrsFields, hl, substLeaf, hg]
    | num n =>
      refine ⟨?_, ?_⟩
      · cases hg : m.get? (joinKey path key) <;>
          simp [rebuildFields, maskFields, maskVal, hm, hg]
      · cases hg : m.get? (joinKey path key) <;>
          simp [rebuildFields, leafAddrsFields, hl, substLeaf, hg]
    | str s =>
      refine ⟨?_, ?_⟩
      · cases hg : m.get? (joinKey path key) <;>
          simp [rebuildFields, maskFields, maskVal, hm, hg]
      · cases hg : m.get? (joinKey path key) <;>
          simp [rebuildFields, leafAddrsFields, hl, substLeaf, hg]

/-- Frame property of the array walk. -/
theorem rebuildItems_frame (m : PyDict String) :
    ∀ (items : JList) (path : String) (i : Nat),
      maskItems (rebuildItems m items path i) = maskItems items ∧
      leafAddrsItems (rebuildItems m items path i) path i
        = (leafAddrsItems items path i).map (substLeaf m)
  | .nil, _, _ => ⟨rfl, rfl⟩
  | .cons item rest, path, i => by
    obtain ⟨hm, hl⟩ := rebuildItems_frame m rest path (i + 1)
    cases item with
    | obj fs =>
      obtain ⟨hm1, hl1⟩ := rebuildFields_frame m fs (joinIdx path i)
      exact ⟨by simp [rebuildItems, maskItems, maskVal, hm, hm1],
        by simp [rebuildItems, leafAddrsItems, hl, hl1]⟩
    | arr its =>
      obtain ⟨hm1, hl1⟩ := rebuildItems_frame m its (joinIdx path i) 0
      exact ⟨by simp [rebuildItems, maskItems, maskVal, hm, hm1],
        by simp [rebuildItems, leafAddrsItems, hl, hl1]⟩
    | null =>
      refine ⟨?_, ?_⟩
      · cases hg : m.get? (joinIdx path i) <;>
          simp [rebuildItems, maskItems, maskVal, hm, hg]
      · cases hg : m.get? (joinIdx path i) <;>
          simp [rebuildItems, leafAddrsItems, hl, substLeaf, hg]
    | bool b =>
      refine ⟨?_, ?_⟩
      · cases hg : m.get? (joinIdx path i) <;>
          simp [rebuildItems, maskItems, maskVal, hm, hg]
      · cases hg : m.get? (joinIdx path i) <;>
          simp [rebuildItems, leafAddrsItems, hl, substLeaf, hg]
    | num n =>
      refine ⟨?_, ?_⟩
      · cases hg : m.get? (joinIdx path i) <;>
          simp [rebuildItems, maskItems, maskVal, hm, hg]
      · cases hg : m.get? (joinIdx path i) <;>
          simp [rebuildItems, leafAddrsItems, hl, substLeaf, hg]
    | str s =>
      refine ⟨?_, ?_⟩
      · cases hg : m.get? (joinIdx path i) <;>
          simp [rebuildItems, maskItems, maskVal, hm, hg]
      · cases hg : m.get? (joinIdx path i) <;>
          simp [rebuildItems, leafAddrsItems, hl, substLeaf, hg]
end

/-- C9: `rebuild_product_data` is a pure function of its arguments (so
the original is never mutated); its result has exactly the original's
skeleton — keys, ordering, nesting and container structure — and every
scalar leaf is the original one unless its address occurs in the
resolved lookup, in which case it becomes the looked-up text; lookup
entries matching no address simply have no effect (no error). -/
theorem rebuild_product_data_frame (original : JFields)
    (resolved : List ResolvedLeaf) :
    maskFields (rebuild_product_data original resolved) = maskFields original ∧
    leafAddrsFields (rebuild_product_data original resolved) ""
      = (leafAddrsFields original "").map
          (substLeaf (resolved.foldl (fun m it => m.set it.path it.text) [])) :=
  rebuildFields_frame _ original ""

/-! ## C5 amended: every flattened leaf is dispatched -/

/-- `forceResolve` only writes the two accumulators. -/
theorem forceResolve_frame (pending : List FlatLeaf) :
    ∀ st : CoordSt,
      ((forceResolve st pending).callIdx = st.callIdx) ∧
      ((forceResolve st pending).events = st.events) ∧
      ((forceResolve st pending).dispatched = st.dispatched) := by
  induction pending with
  | nil => exact fun st => ⟨rfl, rfl, rfl⟩
  | cons it rest ih =>
    intro st
    unfold forceResolve
    rw [List.foldl_cons]
    obtain ⟨h1, h2, h3⟩ := ih _
    unfold forceResolve at h1 h2 h3
    exact ⟨h1, h2, h3⟩

/-- One chunk step appends exactly the dispatched chunk to the log. -/
theorem processChunk_dispatched {behavior : CollabBehavior}
    (hb : ∀ n c, behavior n c ≠ .raise) (st : CoordSt) (chunk : List FlatLeaf) :
    ∃ st' req, processChunk behavior st chunk = .ok (st', req) ∧
      st'.dispatched = st.dispatched ++ [chunk] := by
  cases hcall : behavior st.callIdx chunk with
  | raise => exact absurd hcall (hb _ _)
  | noOutput => exact ⟨_, _, processChunk_noOutput hcall, rfl⟩
  | ok items =>
    refine ⟨_, _, processChunk_okOutput hcall, ?_⟩
    exact (foldl_recordItem_frame _ items _).2.2

/-- The chunk loop appends exactly the dispatched chunks to the log. -/
theorem processChunks_dispatched {behavior : CollabBehavior}
    (hb : ∀ n c, behavior n c ≠ .raise) (pn ti tc : Nat) :
    ∀ (chunks : List (List FlatLeaf)) (idx : Nat) (st : CoordSt) (acc : List FlatLeaf),
      ∃ st' pend, processChunks behavior pn ti tc idx st chunks acc = .ok (st', pend) ∧
        st'.dispatched = st.dispatched ++ chunks
  | [], idx, st, acc => ⟨st, acc, rfl, by simp⟩
  | chunk :: rest, idx, st, acc => by
    obtain ⟨st1, req, h1, hd1⟩ := processChunk_dispatched hb st chunk
    obtain ⟨st', pend, h2, hd2⟩ := processChunks_dispatched hb pn ti tc rest (idx + 1)
      { st1 with events := st1.events ++
          [ProgressEvent.inProgress pn (idx + 1) tc ((idx + 1) * 100 / tc) ti
            st1.translations.length (st1.translations.length * 100 / ti)] }
      (acc ++ req)
    refine ⟨st', pend, ?_, ?_⟩
    · unfold processChunks
      rw [h1]
      simpa [Bind.bind, Except.bind] using h2
    · rw [hd2]
      show st1.dispatched ++ rest = _
      rw [hd1, List.append_assoc]
      rfl

/-- The pass loop only grows the dispatch log, and (when at least one
pass remains) dispatches every chunk of the current pending list. -/
theorem runPasses_dispatch {behavior : CollabBehavior}
    (hb : ∀ n c, behavior n c ≠ .raise) {cs : Nat} (hcs : 0 < cs) (mp ti : Nat) :
    ∀ (n : Nat) (st : CoordSt) (pending : List FlatLeaf),
      ∃ st' pend', runPasses behavior cs mp ti n st pending = .ok (st', pend') ∧
        (∀ b ∈ st.dispatched, b ∈ st'.dispatched) ∧
        (0 < n → ∀ b ∈ chunkList cs pending, b ∈ st'.dispatched)
  | 0, st, pending =>
    ⟨st, pending, rfl, fun _ h => h, fun h0 => absurd h0 (by simp)⟩
  | n + 1, st, pending => by
    by_cases hp : pending.isEmpty
    · refine ⟨st, pending, by unfold runPasses; simp [hp], fun _ h => h, ?_⟩
      intro _ b hb'
      rw [List.isEmpty_iff.mp hp] at hb'
      simp [chunkList] at hb'
    · obtain ⟨st1, pend1, h1, hd1⟩ := processChunks_dispatched hb (mp - n) ti
        (chunkList cs pending).length (chunkList cs pending) 0 st []
      obtain ⟨st', pend', h2, hmono, -⟩ := runPasses_dispatch hb hcs mp ti n
        { st1 with events := st1.events ++
            [ProgressEvent.passCompleted (mp - n) mp ti st1.translations.length
              (st1.translations.length * 100 / ti)] } pend1
      have hrun : runPasses behavior cs mp ti (n + 1) st pending
          = .ok (st', pend') := by
        unfold runPasses
        simp only [hp, if_false, if_neg (Nat.pos_iff_ne_zero.mp hcs)]
        rw [h1]
        simpa [Bind.bind, Except.bind] using h2
      have hin : ∀ b ∈ st1.dispatched, b ∈ st'.dispatched := fun b hb' => hmono b hb'
      refine ⟨st', pend', hrun, ?_, ?_⟩
      · intro b hb'
        exact hin b (by rw [hd1]; exact List.mem_append_left _ hb')
      · intro _ b hb'
        exact hin b (by rw [hd1]; exact List.mem_append_right _ hb')

/-- C5 amended: `translate_product_data` performs no key-based routing
at all — with at least one pass, a positive chunk size and a
non-raising collaborator, every leaf of the flattened document
(including leaves under image-gallery keys and the source-URL leaf) is
contained in some batch dispatched to the collaborator. -/
theorem translate_product_dispatches_all (data : JFields) (cs mp : Nat)
    (behavior : CollabBehavior) (hcs : 0 < cs) (hmp : 0 < mp)
    (hb : ∀ n c, behavior n c ≠ .raise) :
    ∃ st res, translate_product_data data cs mp behavior = .ok (st, res) ∧
      ∀ leaf ∈ flatten_product_data data, ∃ b ∈ st.dispatched, leaf ∈ b := by
  obtain ⟨st1, pend1, h1, -, hcover⟩ := runPasses_dispatch hb hcs mp
    (flatten_product_data data).length mp
    { translations := [], status_map := [], callIdx := 0,
      events := [.started (flatten_product_data data).length 0 0],
      dispatched := [] } (flatten_product_data data)
  cases hT : translate_product_data data cs mp behavior with
  | error e =>
    exfalso
    unfold translate_product_data translate_flattened_data at hT
    dsimp only at hT
    rw [h1] at hT
    simp [Bind.bind, Except.bind, Except.map] at hT
  | ok p =>
    obtain ⟨st, res⟩ := p
    have hTf : ∃ resf, translate_flattened_data (flatten_product_data data) cs mp
        behavior = .ok (st, resf) := by
      unfold translate_product_data at hT
      cases hF : translate_flattened_data (flatten_product_data data) cs mp behavior with
      | error e => rw [hF] at hT; simp [Except.map] at hT
      | ok q =>
        obtain ⟨stf, resf⟩ := q
        rw [hF] at hT
        simp only [Except.map, Except.ok.injEq, Prod.mk.injEq] at hT
        exact ⟨resf, by rw [hT.1]⟩
    obtain ⟨resf, hTf⟩ := hTf
    obtain ⟨st1', pend1', h1', -⟩ := translate_ok_elim hTf
    rw [h1] at h1'
    obtain ⟨hst1, hpend1⟩ : st1 = st1' ∧ pend1 = pend1' := by
      have := h1'
      simp only [Except.ok.injEq, Prod.mk.injEq] at this
      exact ⟨this.1, this.2⟩
    subst hst1; subst hpend1
    have hstd : st.dispatched = st1.dispatched := by
      unfold translate_flattened_data at hTf
      dsimp only at hTf
      rw [h1] at hTf
      simp only [Bind.bind, Except.bind, Except.ok.injEq, Prod.mk.injEq] at hTf
      rw [← hTf.1]
      exact (forceResolve_frame pend1 st1).2.2
    refine ⟨st, res, rfl, ?_⟩
    intro leaf hleaf
    have hmem : leaf ∈ (chunkList cs (flatten_product_data data)).flatten := by
      rw [chunkList_flatten]
      exact hleaf
    obtain ⟨b, hbmem, hlb⟩ := List.mem_flatten.mp hmem
    exact ⟨b, by rw [hstd]; exact hcover hmp b hbmem, hlb⟩

/-- C5 witness: the amended statement at the gallery/url document with
the echoing collaborator. -/
theorem translate_product_dispatches_all_witness :
    ∃ st res, translate_product_data galleryDoc 50 3 echoNotNeeded = .ok (st, res) ∧
      ∀ leaf ∈ flatten_product_data galleryDoc, ∃ b ∈ st.dispatched, leaf ∈ b :=
  translate_product_dispatches_all galleryDoc 50 3 echoNotNeeded (by decide)
    (by decide) (fun _ _ h => CollabOutcome.noConfusion h)

/-! ## Decimal rendering: characterization, digits, injectivity -/

theorem natDigitsAux_fuel (n : Nat) : ∀ f f', n ≤ f → n ≤ f' →
    natDigitsAux f n = natDigitsAux f' n := by
  induction n using Nat.strong_induction_on with
  | _ n ih =>
    intro f f' hf hf'
    match f, f' with
    | 0, 0 => rfl
    | 0, f' + 1 =>
      have hn : n = 0 := Nat.le_zero.mp hf
      subst hn
      simp [natDigitsAux]
    | f + 1, 0 =>
      have hn : n = 0 := Nat.le_zero.mp hf'
      subst hn
      simp [natDigitsAux]
    | f + 1, f' + 1 =>
      by_cases h10 : n < 10
      · simp [natDigitsAux, h10]
      · have hdiv : n / 10 < n := Nat.div_lt_self (by omega) (by omega)
        simp only [natDigitsAux, if_neg h10]
        rw [ih (n / 10) hdiv f f' (by omega) (by omega)]

/-- The characteristic recursion of the decimal printer. -/
theorem natDigits_eq (n : Nat) :
    natDigits n = if n < 10 then [digitChar n]
      else natDigits (n / 10) ++ [digitChar (n % 10)] := by
  by_cases h10 : n < 10
  · unfold natDigits
    match n with
    | 0 => simp [natDigitsAux]
    | k + 1 => simp [natDigitsAux, h10]
  · match n with
    | 0 => omega
    | k + 1 =>
      have hdiv : (k + 1) / 10 < k + 1 := Nat.div_lt_self (by omega) (by omega)
      unfold natDigits
      show natDigitsAux (k + 1) (k + 1) = _
      simp only [natDigitsAux, if_neg h10]
      rw [natDigitsAux_fuel ((k + 1) / 10) k ((k + 1) / 10) (by omega) (le_refl _)]

theorem natDigits_ne_nil (n : Nat) : natDigits n ≠ [] := by
  rw [natDigits_eq]
  split <;> simp

theorem natDigits_digits (n : Nat) : ∀ c ∈ natDigits n, ∃ d, d < 10 ∧ c = digitChar d := by
  induction n using Nat.strong_induction_on with
  | _ n ih =>
    rw [natDigits_eq]
    by_cases h10 : n < 10
    · rw [if_pos h10]
      intro c hc
      rw [List.mem_singleton] at hc
      exact ⟨n, h10, hc⟩
    · rw [if_neg h10]
      intro c hc
      rcases List.mem_append.mp hc with h | h
      · exact ih (n / 10) (Nat.div_lt_self (by omega) (by omega)) c h
      · rw [List.mem_singleton] at h
        exact ⟨n % 10, Nat.mod_lt _ (by omega), h⟩

theorem digitChar_inj : ∀ d1 < 10, ∀ d2 < 10, digitChar d1 = digitChar d2 → d1 = d2 := by
  decide

theorem digitChar_ne_rbracket : ∀ d < 10, digitChar d ≠ ']' := by decide

theorem digitChar_ne_dot : ∀ d < 10, digitChar d ≠ '.' := by decide

theorem digitChar_ne_lbracket : ∀ d < 10, digitChar d ≠ '[' := by decide

theorem natDigits_inj : ∀ m n : Nat, natDigits m = natDigits n → m = n := by
  intro m
  induction m using Nat.strong_induction_on with
  | _ m ih =>
    intro n h
    rw [natDigits_eq m, natDigits_eq n] at h
    by_cases hm : m < 10 <;> by_cases hn : n < 10
    · rw [if_pos hm, if_pos hn] at h
      exact digitChar_inj m hm n hn (List.singleton_inj.mp h)
    · rw [if_pos hm, if_neg hn] at h
      have h' : ([] : List Char) ++ [digitChar m]
          = natDigits (n / 10) ++ [digitChar (n % 10)] := by simpa using h
      obtain ⟨h1, -⟩ := List.append_inj' h' (by simp)
      exact absurd h1.symm (natDigits_ne_nil _)
    · rw [if_neg hm, if_pos hn] at h
      have h' : natDigits (m / 10) ++ [digitChar (m % 10)]
          = ([] : List Char) ++ [digitChar n] := by simpa using h
      obtain ⟨h1, -⟩ := List.append_inj' h' (by simp)
      exact absurd h1 (natDigits_ne_nil _)
    · rw [if_neg hm, if_neg hn] at h
      obtain ⟨h1, h2⟩ := List.append_inj' h (by simp)
      have hq : m / 10 = n / 10 :=
        ih (m / 10) (Nat.div_lt_self (by omega) (by omega)) (n / 10) h1
      have hr : m % 10 = n % 10 :=
        digitChar_inj _ (Nat.mod_lt _ (by omega)) _ (Nat.mod_lt _ (by omega))
          (List.singleton_inj.mp h2)
      omega

/-! ## Path grammar: separators, key cleanliness, core disjointness -/

/-- A path tail produced under a given prefix: empty, or starting with
the mapping separator `.` or the index opener `[`. -/
def SepStart (t : List Char) : Prop :=
  t = [] ∨ (∃ t', t = '.' :: t') ∨ (∃ t', t = '[' :: t')

/-- A usable mapping key: nonempty, containing neither `.` nor `[`. -/
def cleanKeyB (k : String) : Bool :=
  !(k = "") && k.data.all (fun c => !(c = '.') && !(c = '['))

theorem cleanKeyB_spec {k : String} (h : cleanKeyB k = true) :
    k.data ≠ [] ∧ ∀ c ∈ k.data, c ≠ '.' ∧ c ≠ '[' := by
  unfold cleanKeyB at h
  rw [Bool.and_eq_true, List.all_eq_true] at h
  constructor
  · intro hd
    have : k = "" := String.ext hd
    rw [this] at h
    simpa using h.1
  · intro c hc
    have := h.2 c hc
    rw [Bool.and_eq_true] at this
    constructor
    · simpa using this.1
    · simpa using this.2

/-- Core disjointness for sibling mapping keys: with clean distinct
keys, the key-plus-tail encodings differ. -/
theorem core_key {k1 k2 : String} {t1 t2 : List Char}
    (hc1 : cleanKeyB k1 = true) (hc2 : cleanKeyB k2 = true) (hne : k1 ≠ k2)
    (hs1 : SepStart t1) (hs2 : SepStart t2) :
    k1.data ++ t1 ≠ k2.data ++ t2 := by
  obtain ⟨-, hcl1⟩ := cleanKeyB_spec hc1
  obtain ⟨-, hcl2⟩ := cleanKeyB_spec hc2
  intro h
  rcases List.append_eq_append_iff.mp h with ⟨m, hm1, hm2⟩ | ⟨m, hm1, hm2⟩
  · cases m with
    | nil =>
      rw [List.append_nil] at hm1
      exact hne (String.ext hm1.symm)
    | cons c m' =>
      have hcmem : c ∈ k2.data := by rw [hm1]; simp
      rcases hs1 with h0 | ⟨t', ht⟩ | ⟨t', ht⟩
      · rw [h0] at hm2; exact absurd hm2.symm (by simp)
      · rw [ht] at hm2
        have hcc : '.' = c := ((List.cons.injEq _ _ _ _).mp hm2).1
        exact (hcl2 c hcmem).1 hcc.symm
      · rw [ht] at hm2
        have hcc : '[' = c := ((List.cons.injEq _ _ _ _).mp hm2).1
        exact (hcl2 c hcmem).2 hcc.symm
  · cases m with
    | nil =>
      rw [List.append_nil] at hm1
      exact hne (String.ext hm1)
    | cons c m' =>
      have hcmem : c ∈ k1.data := by rw [hm1]; simp
      rcases hs2 with h0 | ⟨t', ht⟩ | ⟨t', ht⟩
      · rw [h0] at hm2; exact absurd hm2.symm (by simp)
      · rw [ht] at hm2
        have hcc : '.' = c := ((List.cons.injEq _ _ _ _).mp hm2).1
        exact (hcl1 c hcmem).1 hcc.symm
      · rw [ht] at hm2
        have hcc : '[' = c := ((List.cons.injEq _ _ _ _).mp hm2).1
        exact (hcl1 c hcmem).2 hcc.symm

/-- Core disjointness for sibling array indices: distinct indices give
distinct index-plus-tail encodings. -/
theorem core_idx {i j : Nat} (hne : i ≠ j) {t1 t2 : List Char} :
    natDigits i ++ ']' :: t1 ≠ natDigits j ++ ']' :: t2 := by
  intro h
  rcases List.append_eq_append_iff.mp h with ⟨m, hm1, hm2⟩ | ⟨m, hm1, hm2⟩
  · cases m with
    | nil =>
      rw [List.append_nil] at hm1
      exact hne (natDigits_inj _ _ hm1.symm)
    | cons c m' =>
      have hcmem : c ∈ natDigits j := by rw [hm1]; simp
      obtain ⟨d, hd, hcd⟩ := natDigits_digits j c hcmem
      have hcc : ']' = c := ((List.cons.injEq _ _ _ _).mp hm2).1
      exact digitChar_ne_rbracket d hd (hcd.symm.trans hcc.symm)
  · cases m with
    | nil =>
      rw [List.append_nil] at hm1
      exact hne (natDigits_inj _ _ hm1)
    | cons c m' =>
      have hcmem : c ∈ natDigits i := by rw [hm1]; simp
      obtain ⟨d, hd, hcd⟩ := natDigits_digits i c hcmem
      have hcc : ']' = c := ((List.cons.injEq _ _ _ _).mp hm2).1
      exact digitChar_ne_rbracket d hd (hcd.symm.trans hcc.symm)

/-! ## Clean documents and the path shape lemmas -/

/-- The char-level prefix every child address under `path` starts
with: nothing at the top level, `path` plus the separator dot
otherwise. -/
def prefD (path : String) : List Char :=
  if path = "" then [] else path.data ++ ['.']

theorem joinKey_data (path k : String) :
    (joinKey path k).data = prefD path ++ k.data := by
  unfold joinKey prefD
  split
  · simp
  · simp

theorem joinIdx_data (path : String) (i : Nat) :
    (joinIdx path i).data = path.data ++ ('[' :: (natDigits i ++ [']'])) := by
  unfold joinIdx natToStr
  simp

theorem prefD_of_ne_empty {q : String} (h : q ≠ "") :
    prefD q = q.data ++ ['.'] := by
  unfold prefD
  rw [if_neg h]

theorem ne_empty_of_data_ne_nil {q : String} (h : q.data ≠ []) : q ≠ "" :=
  fun he => h (by rw [he])

theorem joinKey_ne_empty {path k : String} (hk : cleanKeyB k = true) :
    joinKey path k ≠ "" := by
  apply ne_empty_of_data_ne_nil
  rw [joinKey_data]
  intro h
  exact (cleanKeyB_spec hk).1 (List.append_eq_nil.mp h).2

theorem joinIdx_ne_empty (path : String) (i : Nat) : joinIdx path i ≠ "" := by
  apply ne_empty_of_data_ne_nil
  rw [joinIdx_data]
  intro h
  exact (List.cons_ne_nil _ _) (List.append_eq_nil.mp h).2

/-- Key membership in an object body. -/
def keyMem (k : String) : JFields → Bool
  | .nil => false
  | .cons k' _ rest => (k' = k) || keyMem k rest

mutual
/-- A clean value: every object anywhere inside has clean,
pairwise-distinct keys. -/
def cleanVal : JValue → Bool
  | .obj fields => cleanFields fields
  | .arr items => cleanItems items
  | _ => true

/-- Clean object body: each key nonempty without `.`/`[`, no duplicate
keys, all values clean. -/
def cleanFields : JFields → Bool
  | .nil => true
  | .cons k v rest => cleanKeyB k && !(keyMem k rest) && cleanVal v && cleanFields rest

/-- Clean array body. -/
def cleanItems : JList → Bool
  | .nil => true
  | .cons v rest => cleanVal v && cleanItems rest
end

theorem cleanFields_cons {k : String} {v : JValue} {rest : JFields}
    (h : cleanFields (.cons k v rest) = true) :
    cleanKeyB k = true ∧ keyMem k rest = false ∧ cleanVal v = true ∧
      cleanFields rest = true := by
  unfold cleanFields at h
  simp only [Bool.and_eq_true, Bool.not_eq_true'] at h
  exact ⟨h.1.1.1, h.1.1.2, h.1.2, h.2⟩

theorem cleanItems_cons {v : JValue} {rest : JList}
    (h : cleanItems (.cons v rest) = true) :
    cleanVal v = true ∧ cleanItems rest = true := by
  unfold cleanItems at h
  simp only [Bool.and_eq_true] at h
  exact h

/-- The block of leaf addresses contributed by one child value. -/
def blockOf (v : JValue) (newPath : String) : List (String × JValue) :=
  match v with
  | .obj fs => leafAddrsFields fs newPath
  | .arr its => leafAddrsItems its newPath 0
  | w => [(newPath, w)]

theorem leafAddrsFields_cons (k : String) (v : JValue) (rest : JFields) (path : String) :
    leafAddrsFields (.cons k v rest) path
      = blockOf v (joinKey path k) ++ leafAddrsFields rest path := by
  cases v <;> rfl

theorem leafAddrsItems_cons (v : JValue) (rest : JList) (path : String) (i : Nat) :
    leafAddrsItems (.cons v rest) path i
      = blockOf v (joinIdx path i) ++ leafAddrsItems rest path (i + 1) := by
  cases v <;> rfl

mutual
/-- Shape of object-block addresses: prefix, then a clean key of the
body, then a separator-started (or empty) tail. -/
theorem shapeF : ∀ (fields : JFields) (q : String),
    cleanFields fields = true →
    ∀ a ∈ (leafAddrsFields fields q).map (·.1),
      ∃ k t, cleanKeyB k = true ∧ keyMem k fields = true ∧
        a.data = prefD q ++ (k.data ++ t) ∧ SepStart t
  | .nil, q => by intro _ a ha; simp [leafAddrsFields] at ha
  | .cons k v rest, q => by
    intro hclean a ha
    obtain ⟨hck, hkm, hcv, hcr⟩ := cleanFields_cons hclean
    rw [leafAddrsFields_cons, List.map_append] at ha
    rcases List.mem_append.mp ha with hchild | hrest
    · have hkmem : keyMem k (.cons k v rest) = true := by simp [keyMem]
      cases v with
      | obj fs =>
        obtain ⟨k', t', hck', -, hdata, hsep⟩ :=
          shapeF fs (joinKey q k) hcv a hchild
        refine ⟨k, '.' :: (k'.data ++ t'), hck, hkmem, ?_, .inr (.inl ⟨_, rfl⟩)⟩
        rw [hdata, prefD_of_ne_empty (joinKey_ne_empty hck), joinKey_data]
        simp
      | arr its =>
        obtain ⟨j, t', -, hdata, hsep⟩ :=
          shapeI its (joinKey q k) 0 hcv a hchild
        refine ⟨k, '[' :: (natDigits j ++ ']' :: t'), hck, hkmem, ?_,
          .inr (.inr ⟨_, rfl⟩)⟩
        rw [hdata, joinKey_data]
        simp
      | null =>
        simp only [blockOf, List.map_cons, List.map_nil, List.mem_singleton] at hchild
        refine ⟨k, [], hck, hkmem, ?_, .inl rfl⟩
        rw [hchild, joinKey_data]
        simp
      | bool b =>
        simp only [blockOf, List.map_cons, List.map_nil, List.mem_singleton] at hchild
        refine ⟨k, [], hck, hkmem, ?_, .inl rfl⟩
        rw [hchild, joinKey_data]
        simp
      | num n =>
        simp only [blockOf, List.map_cons, List.map_nil, List.mem_singleton] at hchild
        refine ⟨k, [], hck, hkmem, ?_, .inl rfl⟩
        rw [hchild, joinKey_data]
        simp
      | str s =>
        simp only [blockOf, List.map_cons, List.map_nil, List.mem_singleton] at hchild
        refine ⟨k, [], hck, hkmem, ?_, .inl rfl⟩
        rw [hchild, joinKey_data]
        simp
    · obtain ⟨k2, t2, hck2, hkm2, hdata2, hsep2⟩ := shapeF rest q hcr a hrest
      exact ⟨k2, t2, hck2, by simp [keyMem, hkm2], hdata2, hsep2⟩

/-- Shape of array-block addresses: prefix, bracketed index at least
the starting one, then a separator-started (or empty) tail. -/
theorem shapeI : ∀ (items : JList) (q : String) (i : Nat),
    cleanItems items = true →
    ∀ a ∈ (leafAddrsItems items q i).map (·.1),
      ∃ j t, i ≤ j ∧ a.data = q.data ++ ('[' :: (natDigits j ++ ']' :: t)) ∧ SepStart t
  | .nil, q, i => by intro _ a ha; simp [leafAddrsItems] at ha
  | .cons v rest, q, i => by
    intro hclean a ha
    obtain ⟨hcv, hcr⟩ := cleanItems_cons hclean
    rw [leafAddrsItems_cons, List.map_append] at ha
    rcases List.mem_append.mp ha with hchild | hrest
    · cases v with
      | obj fs =>
        obtain ⟨k', t', hck', -, hdata, hsep⟩ :=
          shapeF fs (joinIdx q i) hcv a hchild
        refine ⟨i, '.' :: (k'.data ++ t'), le_refl _, ?_, .inr (.inl ⟨_, rfl⟩)⟩
        rw [hdata, prefD_of_ne_empty (joinIdx_ne_empty q i), joinIdx_data]
        simp
      | arr its =>
        obtain ⟨j', t', -, hdata, hsep⟩ :=
          shapeI its (joinIdx q i) 0 hcv a hchild
        refine ⟨i, '[' :: (natDigits j' ++ ']' :: t'), le_refl _, ?_,
          .inr (.inr ⟨_, rfl⟩)⟩
        rw [hdata, joinIdx_data]
        simp
      | null =>
        simp only [blockOf, List.map_cons, List.map_nil, List.mem_singleton] at hchild
        refine ⟨i, [], le_refl _, ?_, .inl rfl⟩
        rw [hchild, joinIdx_data]
      | bool b =>
        simp only [blockOf, List.map_cons, List.map_nil, List.mem_singleton] at hchild
        refine ⟨i, [], le_refl _, ?_, .inl rfl⟩
        rw [hchild, joinIdx_data]
      | num n =>
        simp only [blockOf, List.map_cons, List.map_nil, List.mem_singleton] at hchild
        refine ⟨i, [], le_refl _, ?_, .inl rfl⟩
        rw [hchild, joinIdx_data]
      | str s =>
        simp only [blockOf, List.map_cons, List.map_nil, List.mem_singleton] at hchild
        refine ⟨i, [], le_refl _, ?_, .inl rfl⟩
        rw [hchild, joinIdx_data]
    · obtain ⟨j, t2, hij, hdata2, hsep2⟩ := shapeI rest q (i + 1) hcr a hrest
      exact ⟨j, t2, by omega, hdata2, hsep2⟩
end

/-- Every address contributed by a child value extends the child's own
path with an empty or separator-started tail. -/
theorem blockOf_shape {v : JValue} {p : String} (hcv : cleanVal v = true)
    (hp : p ≠ "") :
    ∀ a ∈ (blockOf v p).map (·.1), ∃ t, a.data = p.data ++ t ∧ SepStart t := by
  intro a ha
  cases v with
  | obj fs =>
    obtain ⟨k', t', hck', -, hdata, hsep⟩ := shapeF fs p hcv a ha
    refine ⟨'.' :: (k'.data ++ t'), ?_, .inr (.inl ⟨_, rfl⟩)⟩
    rw [hdata, prefD_of_ne_empty hp]
    simp
  | arr its =>
    obtain ⟨j, t', -, hdata, hsep⟩ := shapeI its p 0 hcv a ha
    exact ⟨'[' :: (natDigits j ++ ']' :: t'), hdata, .inr (.inr ⟨_, rfl⟩)⟩
  | null =>
    simp only [blockOf, List.map_cons, List.map_nil, List.mem_singleton] at ha
    exact ⟨[], by rw [ha]; simp, .inl rfl⟩
  | bool b =>
    simp only [blockOf, List.map_cons, List.map_nil, List.mem_singleton] at ha
    exact ⟨[], by rw [ha]; simp, .inl rfl⟩
  | num n =>
    simp only [blockOf, List.map_cons, List.map_nil, List.mem_singleton] at ha
    exact ⟨[], by rw [ha]; simp, .inl rfl⟩
  | str s =>
    simp only [blockOf, List.map_cons, List.map_nil, List.mem_singleton] at ha
    exact ⟨[], by rw [ha]; simp, .inl rfl⟩

mutual
/-- In a clean document, all leaf addresses of an object body are
pairwise distinct. -/
theorem nodupF : ∀ (fields : JFields) (q : String), cleanFields fields = true →
    ((leafAddrsFields fields q).map (·.1)).Nodup
  | .nil, q => fun _ => by simp [leafAddrsFields]
  | .cons k v rest, q => by
    intro hclean
    obtain ⟨hck, hkm, hcv, hcr⟩ := cleanFields_cons hclean
    rw [leafAddrsFields_cons, List.map_append]
    refine List.Nodup.append ?_ (nodupF rest q hcr) ?_
    · cases v with
      | obj fs => exact nodupF fs (joinKey q k) hcv
      | arr its => exact nodupI its (joinKey q k) 0 hcv
      | null => simp [blockOf]
      | bool b => simp [blockOf]
      | num n => simp [blockOf]
      | str s => simp [blockOf]
    · intro a ha1 ha2
      obtain ⟨t1, hdata1, hsep1⟩ := blockOf_shape hcv (joinKey_ne_empty hck) a ha1
      obtain ⟨k2, t2, hck2, hkm2, hdata2, hsep2⟩ := shapeF rest q hcr a ha2
      have hne : k ≠ k2 := by
        intro he
        rw [he] at hkm
        exact Bool.false_ne_true (hkm.symm.trans hkm2)
      have h1 : a.data = prefD q ++ (k.data ++ t1) := by
        rw [hdata1, joinKey_data]
        simp [List.append_assoc]
      exact core_key hck hck2 hne hsep1 hsep2
        (List.append_cancel_left (h1.symm.trans hdata2))

/-- In a clean document, all leaf addresses of an array body are
pairwise distinct. -/
theorem nodupI : ∀ (items : JList) (q : String) (i : Nat), cleanItems items = true →
    ((leafAddrsItems items q i).map (·.1)).Nodup
  | .nil, q, i => fun _ => by simp [leafAddrsItems]
  | .cons v rest, q, i => by
    intro hclean
    obtain ⟨hcv, hcr⟩ := cleanItems_cons hclean
    rw [leafAddrsItems_cons, List.map_append]
    refine List.Nodup.append ?_ (nodupI rest q (i + 1) hcr) ?_
    · cases v with
      | obj fs => exact nodupF fs (joinIdx q i) hcv
      | arr its => exact nodupI its (joinIdx q i) 0 hcv
      | null => simp [blockOf]
      | bool b => simp [blockOf]
      | num n => simp [blockOf]
      | str s => simp [blockOf]
    · intro a ha1 ha2
      obtain ⟨t1, hdata1, hsep1⟩ := blockOf_shape hcv (joinIdx_ne_empty q i) a ha1
      obtain ⟨j, t2, hij, hdata2, hsep2⟩ := shapeI rest q (i + 1) hcr a ha2
      have h1 : a.data = q.data ++ ('[' :: (natDigits i ++ ']' :: t1)) := by
        rw [hdata1, joinIdx_data]
        simp [List.append_assoc]
      have h2 := List.append_cancel_left (h1.symm.trans hdata2)
      have h3 : natDigits i ++ ']' :: t1 = natDigits j ++ ']' :: t2 :=
        ((List.cons.injEq _ _ _ _).mp h2).2
      exact core_idx (by omega) h3
end

mutual
/-- The flattened paths of an object body are a sub-sequence of its
leaf addresses (flatten just skips the null leaves). -/
theorem subF : ∀ (fields : JFields) (path : String),
    ((flattenFields fields path).map (·.path)).Sublist
      ((leafAddrsFields fields path).map (·.1))
  | .nil, _ => by simp [flattenFields, leafAddrsFields]
  | .cons k v rest, path => by
    rw [leafAddrsFields_cons, List.map_append]
    cases v with
    | obj fs =>
      show ((flattenFields fs (joinKey path k)
          ++ flattenFields rest path).map (·.path)).Sublist _
      rw [List.map_append]
      exact (subF fs (joinKey path k)).append (subF rest path)
    | arr its =>
      show ((flattenItems its (joinKey path k) 0
          ++ flattenFields rest path).map (·.path)).Sublist _
      rw [List.map_append]
      exact (subI its (joinKey path k) 0).append (subF rest path)
    | null =>
      show ((([] : List FlatLeaf) ++ flattenFields rest path).map (·.path)).Sublist
        ([joinKey path k] ++ (leafAddrsFields rest path).map (·.1))
      rw [List.nil_append, List.singleton_append]
      exact (subF rest path).cons _
    | bool b =>
      show (((⟨joinKey path k, scalarStr (.bool b)⟩ : FlatLeaf)
          :: flattenFields rest path).map (·.path)).Sublist
        ([joinKey path k] ++ (leafAddrsFields rest path).map (·.1))
      rw [List.map_cons, List.singleton_append]
      exact (subF rest path).cons₂ _
    | num n =>
      show (((⟨joinKey path k, scalarStr (.num n)⟩ : FlatLeaf)
          :: flattenFields rest path).map (·.path)).Sublist
        ([joinKey path k] ++ (leafAddrsFields rest path).map (·.1))
      rw [List.map_cons, List.singleton_append]
      exact (subF rest path).cons₂ _
    | str s =>
      show (((⟨joinKey path k, scalarStr (.str s)⟩ : FlatLeaf)
          :: flattenFields rest path).map (·.path)).Sublist
        ([joinKey path k] ++ (leafAddrsFields rest path).map (·.1))
      rw [List.map_cons, List.singleton_append]
      exact (subF rest path).cons₂ _

/-- The flattened paths of an array body are a sub-sequence of its
leaf addresses. -/
theorem subI : ∀ (items : JList) (path : String) (i : Nat),
    ((flattenItems items path i).map (·.path)).Sublist
      ((leafAddrsItems items path i).map (·.1))
  | .nil, _, _ => by simp [flattenItems, leafAddrsItems]
  | .cons v rest, path, i => by
    rw [leafAddrsItems_cons, List.map_append]
    cases v with
    | obj fs =>
      show ((flattenFields fs (joinIdx path i)
          ++ flattenItems rest path (i + 1)).map (·.path)).Sublist _
      rw [List.map_append]
      exact (subF fs (joinIdx path i)).append (subI rest path (i + 1))
    | arr its =>
      show ((flattenItems its (joinIdx path i) 0
          ++ flattenItems rest path (i + 1)).map (·.path)).Sublist _
      rw [List.map_append]
      exact (subI its (joinIdx path i) 0).append (subI rest path (i + 1))
    | null =>
      show ((([] : List FlatLeaf) ++ flattenItems rest path (i + 1)).map (·.path)).Sublist
        ([joinIdx path i] ++ (leafAddrsItems rest path (i + 1)).map (·.1))
      rw [List.nil_append, List.singleton_append]
      exact (subI rest path (i + 1)).cons _
    | bool b =>
      show (((⟨joinIdx path i, scalarStr (.bool b)⟩ : FlatLeaf)
          :: flattenItems rest path (i + 1)).map (·.path)).Sublist
        ([joinIdx path i] ++ (leafAddrsItems rest path (i + 1)).map (·.1))
      rw [List.map_cons, List.singleton_append]
      exact (subI rest path (i + 1)).cons₂ _
    | num n =>
      show (((⟨joinIdx path i, scalarStr (.num n)⟩ : FlatLeaf)
          :: flattenItems rest path (i + 1)).map (·.path)).Sublist
        ([joinIdx path i] ++ (leafAddrsItems rest path (i + 1)).map (·.1))
      rw [List.map_cons, List.singleton_append]
      exact (subI rest path (i + 1)).cons₂ _
    | str s =>
      show (((⟨joinIdx path i, scalarStr (.str s)⟩ : FlatLeaf)
          :: flattenItems rest path (i + 1)).map (·.path)).Sublist
        ([joinIdx path i] ++ (leafAddrsItems rest path (i + 1)).map (·.1))
      rw [List.map_cons, List.singleton_append]
      exact (subI rest path (i + 1)).cons₂ _
end

/-- C6 amended: for documents whose mapping keys are nonempty, free of
`.` and `[`, and pairwise distinct within each mapping, the paths
produced by `flatten_product_data` are pairwise distinct. -/
theorem flatten_paths_nodup (data : JFields) (h : cleanFields data = true) :
    ((flatten_product_data data).map (·.path)).Nodup :=
  (nodupF data "" h).sublist (subF data "")

/-- C6 witness: the clean gallery/url document has pairwise-distinct
flattened paths. -/
theorem flatten_paths_nodup_witness :
    cleanFields galleryDoc = true ∧
    ((flatten_product_data galleryDoc).map (·.path)).Nodup :=
  ⟨by decide, flatten_paths_nodup galleryDoc (by decide)⟩

/-! ## C4 amended: string-leaved clean documents round-trip -/

mutual
/-- Every scalar leaf inside is a string or null (the only leaves the
rebuild step can write back without changing their JSON type). -/
def strLeavesVal : JValue → Bool
  | .obj fields => strLeavesFields fields
  | .arr items => strLeavesItems items
  | .str _ => true
  | .null => true
  | _ => false

/-- String-or-null leaves in an object body. -/
def strLeavesFields : JFields → Bool
  | .nil => true
  | .cons _ v rest => strLeavesVal v && strLeavesFields rest

/-- String-or-null leaves in an array body. -/
def strLeavesItems : JList → Bool
  | .nil => true
  | .cons v rest => strLeavesVal v && strLeavesItems rest
end

/-- What flatten emits for one recorded leaf. -/
def leafEmit (pv : String × JValue) : Option FlatLeaf :=
  match pv.2 with
  | .null => none
  | .obj _ => none
  | .arr _ => none
  | v => some ⟨pv.1, scalarStr v⟩

mutual
/-- Flatten is exactly the non-null scalar projection of the leaf
enumeration. -/
theorem flattenF_filterMap : ∀ (fields : JFields) (path : String),
    flattenFields fields path = (leafAddrsFields fields path).filterMap leafEmit
  | .nil, _ => rfl
  | .cons k v rest, path => by
    rw [leafAddrsFields_cons, List.filterMap_append]
    cases v with
    | obj fs =>
      show flattenFields fs (joinKey path k) ++ flattenFields rest path = _
      rw [flattenF_filterMap fs (joinKey path k), flattenF_filterMap rest path]
      rfl
    | arr its =>
      show flattenItems its (joinKey path k) 0 ++ flattenFields rest path = _
      rw [flattenI_filterMap its (joinKey path k) 0, flattenF_filterMap rest path]
      rfl
    | null =>
      show ([] : List FlatLeaf) ++ flattenFields rest path = _
      rw [flattenF_filterMap rest path]
      rfl
    | bool b =>
      show [(⟨joinKey path k, scalarStr (.bool b)⟩ : FlatLeaf)]
          ++ flattenFields rest path = _
      rw [flattenF_filterMap rest path]
      rfl
    | num n =>
      show [(⟨joinKey path k, scalarStr (.num n)⟩ : FlatLeaf)]
          ++ flattenFields rest path = _
      rw [flattenF_filterMap rest path]
      rfl
    | str s =>
      show [(⟨joinKey path k, scalarStr (.str s)⟩ : FlatLeaf)]
          ++ flattenFields rest path = _
      rw [flattenF_filterMap rest path]
      rfl

/-- Array version of `flattenF_filterMap`. -/
theorem flattenI_filterMap : ∀ (items : JList) (path : String) (i : Nat),
    flattenItems items path i = (leafAddrsItems items path i).filterMap leafEmit
  | .nil, _, _ => rfl
  | .cons v rest, path, i => by
    rw [leafAddrsItems_cons, List.filterMap_append]
    cases v with
    | obj fs =>
      show flattenFields fs (joinIdx path i) ++ flattenItems rest path (i + 1) = _
      rw [flattenF_filterMap fs (joinIdx path i), flattenI_filterMap rest path (i + 1)]
      rfl
    | arr its =>
      show flattenItems its (joinIdx path i) 0 ++ flattenItems rest path (i + 1) = _
      rw [flattenI_filterMap its (joinIdx path i) 0, flattenI_filterMap rest path (i + 1)]
      rfl
    | null =>
      show ([] : List FlatLeaf) ++ flattenItems rest path (i + 1) = _
      rw [flattenI_filterMap rest path (i + 1)]
      rfl
    | bool b =>
      show [(⟨joinIdx path i, scalarStr (.bool b)⟩ : FlatLeaf)]
          ++ flattenItems rest path (i + 1) = _
      rw [flattenI_filterMap rest path (i + 1)]
      rfl
    | num n =>
      show [(⟨joinIdx path i, scalarStr (.num n)⟩ : FlatLeaf)]
          ++ flattenItems rest path (i + 1) = _
      rw [flattenI_filterMap rest path (i + 1)]
      rfl
    | str s =>
      show [(⟨joinIdx path i, scalarStr (.str s)⟩ : FlatLeaf)]
          ++ flattenItems rest path (i + 1) = _
      rw [flattenI_filterMap rest path (i + 1)]
      rfl
end

/-- A string leaf is flattened with its own text. -/
theorem mem_flatten_of_str_leaf {fields : JFields} {path a s : String}
    (h : (a, JValue.str s) ∈ leafAddrsFields fields path) :
    (⟨a, s⟩ : FlatLeaf) ∈ flattenFields fields path := by
  rw [flattenF_filterMap]
  exact List.mem_filterMap.mpr ⟨(a, .str s), h, rfl⟩

/-- Every flattened record comes from a non-null recorded leaf. -/
theorem leaf_of_mem_flatten {fields : JFields} {path : String} {x : FlatLeaf}
    (h : x ∈ flattenFields fields path) :
    ∃ v, (x.path, v) ∈ leafAddrsFields fields path ∧ v ≠ .null := by
  rw [flattenF_filterMap] at h
  obtain ⟨pv, hpv, hemit⟩ := List.mem_filterMap.mp h
  obtain ⟨a, v⟩ := pv
  cases v with
  | null => exact absurd hemit (by simp [leafEmit])
  | obj fs => exact absurd hemit (by simp [leafEmit])
  | arr its => exact absurd hemit (by simp [leafEmit])
  | bool b =>
    refine ⟨.bool b, ?_, by intro h'; cases h'⟩
    have hx : x.path = a := by
      simp [leafEmit] at hemit
      rw [← hemit]
    rw [hx]
    exact hpv
  | num n =>
    refine ⟨.num n, ?_, by intro h'; cases h'⟩
    have hx : x.path = a := by
      simp [leafEmit] at hemit
      rw [← hemit]
    rw [hx]
    exact hpv
  | str s =>
    refine ⟨.str s, ?_, by intro h'; cases h'⟩
    have hx : x.path = a := by
      simp [leafEmit] at hemit
      rw [← hemit]
    rw [hx]
    exact hpv

/-- The per-leaf hypothesis under which the rebuild walk is the
identity: null leaves are missing from the lookup, string leaves map to
their own text. -/
def leafOK (m : PyDict String) (pv : String × JValue) : Prop :=
  (pv.2 = .null ∧ m.get? pv.1 = none) ∨
  (∃ s, pv.2 = .str s ∧ m.get? pv.1 = some s)

mutual
/-- Rebuild leaves an object body unchanged when every leaf satisfies
`leafOK`. -/
theorem rebuildF_id {m : PyDict String} : ∀ (fields : JFields) (path : String),
    (∀ pv ∈ leafAddrsFields fields path, leafOK m pv) →
    rebuildFields m fields path = fields
  | .nil, _ => fun _ => rfl
  | .cons k v rest, path => by
    intro h
    rw [leafAddrsFields_cons] at h
    have hchild : ∀ pv ∈ blockOf v (joinKey path k), leafOK m pv :=
      fun pv hp => h pv (List.mem_append.mpr (.inl hp))
    have hrest : ∀ pv ∈ leafAddrsFields rest path, leafOK m pv :=
      fun pv hp => h pv (List.mem_append.mpr (.inr hp))
    cases v with
    | obj fs =>
      show JFields.cons k (.obj (rebuildFields m fs (joinKey path k)))
          (rebuildFields m rest path) = _
      rw [rebuildF_id fs (joinKey path k) hchild, rebuildF_id rest path hrest]
    | arr its =>
      show JFields.cons k (.arr (rebuildItems m its (joinKey path k) 0))
          (rebuildFields m rest path) = _
      rw [rebuildI_id its (joinKey path k) 0 hchild, rebuildF_id rest path hrest]
    | null =>
      have hk := hchild (joinKey path k, .null) (by simp [blockOf])
      rcases hk with ⟨-, hnone⟩ | ⟨s, hs, -⟩
      · show JFields.cons k (match m.get? (joinKey path k) with
            | some t => JValue.str t | none => JValue.null)
            (rebuildFields m rest path) = _
        rw [hnone, rebuildF_id rest path hrest]
      · exact absurd hs (by intro h'; cases h')
    | bool b =>
      have hk := hchild (joinKey path k, .bool b) (by simp [blockOf])
      rcases hk with ⟨hnull, -⟩ | ⟨s, hs, -⟩
      · exact absurd hnull (by intro h'; cases h')
      · exact absurd hs (by intro h'; cases h')
    | num n =>
      have hk := hchild (joinKey path k, .num n) (by simp [blockOf])
      rcases hk with ⟨hnull, -⟩ | ⟨s, hs, -⟩
      · exact absurd hnull (by intro h'; cases h')
      · exact absurd hs (by intro h'; cases h')
    | str s =>
      have hk := hchild (joinKey path k, .str s) (by simp [blockOf])
      rcases hk with ⟨hnull, -⟩ | ⟨s', hs, hsome⟩
      · exact absurd hnull (by intro h'; cases h')
      · have hss : s' = s := by
          have := hs
          injection this with h''
          exact h''.symm
        show JFields.cons k (match m.get? (joinKey path k) with
            | some t => JValue.str t | none => JValue.str s)
            (rebuildFields m rest path) = _
        rw [hsome, hss, rebuildF_id rest path hrest]

/-- Rebuild leaves an array body unchanged when every leaf satisfies
`leafOK`. -/
theorem rebuildI_id {m : PyDict String} : ∀ (items : JList) (path : String) (i : Nat),
    (∀ pv ∈ leafAddrsItems items path i, leafOK m pv) →
    rebuildItems m items path i = items
  | .nil, _, _ => fun _ => rfl
  | .cons v rest, path, i => by
    intro h
    rw [leafAddrsItems_cons] at h
    have hchild : ∀ pv ∈ blockOf v (joinIdx path i), leafOK m pv :=
      fun pv hp => h pv (List.mem_append.mpr (.inl hp))
    have hrest : ∀ pv ∈ leafAddrsItems rest path (i + 1), leafOK m pv :=
      fun pv hp => h pv (List.mem_append.mpr (.inr hp))
    cases v with
    | obj fs =>
      show JList.cons (.obj (rebuildFields m fs (joinIdx path i)))
          (rebuildItems m rest path (i + 1)) = _
      rw [rebuildF_id fs (joinIdx path i) hchild, rebuildI_id rest path (i + 1) hrest]
    | arr its =>
      show JList.cons (.arr (rebuildItems m its (joinIdx path i) 0))
          (rebuildItems m rest path (i + 1)) = _
      rw [rebuildI_id its (joinIdx path i) 0 hchild, rebuildI_id rest path (i + 1) hrest]
    | null =>
      have hk := hchild (joinIdx path i, .null) (by simp [blockOf])
      rcases hk with ⟨-, hnone⟩ | ⟨s, hs, -⟩
      · show JList.cons (match m.get? (joinIdx path i) with
            | some t => JValue.str t | none => JValue.null)
            (rebuildItems m rest path (i + 1)) = _
        rw [hnone, rebuildI_id rest path (i + 1) hrest]
      · exact absurd hs (by intro h'; cases h')
    | bool b =>
      have hk := hchild (joinIdx path i, .bool b) (by simp [blockOf])
      rcases hk with ⟨hnull, -⟩ | ⟨s, hs, -⟩
      · exact absurd hnull (by intro h'; cases h')
      · exact absurd hs (by intro h'; cases h')
    | num n =>
      have hk := hchild (joinIdx path i, .num n) (by simp [blockOf])
      rcases hk with ⟨hnull, -⟩ | ⟨s, hs, -⟩
      · exact absurd hnull (by intro h'; cases h')
      · exact absurd hs (by intro h'; cases h')
    | str s =>
      have hk := hchild (joinIdx path i, .str s) (by simp [blockOf])
      rcases hk with ⟨hnull, -⟩ | ⟨s', hs, hsome⟩
      · exact absurd hnull (by intro h'; cases h')
      · have hss : s' = s := by
          have := hs
          injection this with h''
          exact h''.symm
        show JList.cons (match m.get? (joinIdx path i) with
            | some t => JValue.str t | none => JValue.str s)
            (rebuildItems m rest path (i + 1)) = _
        rw [hsome, hss, rebuildI_id rest path (i + 1) hrest]
end

mutual
/-- In a string-leaved object body, every recorded leaf value is null
or a string. -/
theorem strLeavesF_values : ∀ (fields : JFields) (path : String),
    strLeavesFields fields = true →
    ∀ pv ∈ leafAddrsFields fields path, pv.2 = JValue.null ∨ ∃ s, pv.2 = JValue.str s
  | .nil, _ => by intro _ pv hpv; simp [leafAddrsFields] at hpv
  | .cons k v rest, path => by
    intro h pv hpv
    have hdec : strLeavesVal v = true ∧ strLeavesFields rest = true := by
      unfold strLeavesFields at h
      simpa [Bool.and_eq_true] using h
    rw [leafAddrsFields_cons] at hpv
    rcases List.mem_append.mp hpv with hc | hr
    · cases v with
      | obj fs => exact strLeavesF_values fs (joinKey path k) hdec.1 pv hc
      | arr its => exact strLeavesI_values its (joinKey path k) 0 hdec.1 pv hc
      | null =>
        simp only [blockOf, List.mem_singleton] at hc
        subst hc
        exact .inl rfl
      | str s =>
        simp only [blockOf, List.mem_singleton] at hc
        subst hc
        exact .inr ⟨s, rfl⟩
      | bool b => exact absurd hdec.1 (by simp [strLeavesVal])
      | num n => exact absurd hdec.1 (by simp [strLeavesVal])
    · exact strLeavesF_values rest path hdec.2 pv hr

/-- Array version of `strLeavesF_values`. -/
theorem strLeavesI_values : ∀ (items : JList) (path : String) (i : Nat),
    strLeavesItems items = true →
    ∀ pv ∈ leafAddrsItems items path i, pv.2 = JValue.null ∨ ∃ s, pv.2 = JValue.str s
  | .nil, _, _ => by intro _ pv hpv; simp [leafAddrsItems] at hpv
  | .cons v rest, path, i => by
    intro h pv hpv
    have hdec : strLeavesVal v = true ∧ strLeavesItems rest = true := by
      unfold strLeavesItems at h
      simpa [Bool.and_eq_true] using h
    rw [leafAddrsItems_cons] at hpv
    rcases List.mem_append.mp hpv with hc | hr
    · cases v with
      | obj fs => exact strLeavesF_values fs (joinIdx path i) hdec.1 pv hc
      | arr its => exact strLeavesI_values its (joinIdx path i) 0 hdec.1 pv hc
      | null =>
        simp only [blockOf, List.mem_singleton] at hc
        subst hc
        exact .inl rfl
      | str s =>
        simp only [blockOf, List.mem_singleton] at hc
        subst hc
        exact .inr ⟨s, rfl⟩
      | bool b => exact absurd hdec.1 (by simp [strLeavesVal])
      | num n => exact absurd hdec.1 (by simp [strLeavesVal])
    · exact strLeavesI_values rest path (i + 1) hdec.2 pv hr
end

/-- The `path → text` lookup built from the resolved leaves ignores
paths outside it. -/
theorem resDict_get?_not_mem {res : List ResolvedLeaf} {p : String}
    (h : p ∉ res.map (·.path)) :
    ∀ m : PyDict String,
      (res.foldl (fun m it => m.set it.path it.text) m).get? p = m.get? p := by
  induction res with
  | nil => intro m; rfl
  | cons it rest ih =>
    intro m
    simp only [List.map_cons, List.mem_cons] at h
    push_neg at h
    rw [List.foldl_cons, ih h.2]
    exact PyDict.get?_set_ne _ _ (Ne.symm h.1)

/-- With pairwise-distinct paths, the resolved lookup returns each
leaf's own text. -/
theorem resDict_get?_mem {res : List ResolvedLeaf}
    (hnd : (res.map (·.path)).Nodup) {r : ResolvedLeaf} (hr : r ∈ res) :
    ∀ m : PyDict String,
      (res.foldl (fun m it => m.set it.path it.text) m).get? r.path = some r.text := by
  induction res with
  | nil => simp at hr
  | cons r0 rest ih =>
    intro m
    simp only [List.map_cons, List.nodup_cons] at hnd
    rw [List.foldl_cons]
    rcases List.mem_cons.mp hr with h | h
    · subst h
      rw [resDict_get?_not_mem hnd.1, PyDict.get?_set_self]
    · exact ih hnd.2 h _

/-- The accumulator invariant behind C4: every recorded translation is
the original input text of its path. -/
def TOInv (input : List FlatLeaf) (st : CoordSt) : Prop :=
  ∀ p t, st.translations.get? p = some t → origOf input p = some t

theorem recordItem_TO {input chunk : List FlatLeaf}
    (hnd : (input.map (·.path)).Nodup) (hsub : chunk.Sublist input)
    {it : TranslationItem} (hfalse : it.should_translate = false)
    (hin : it.path ∈ chunk.map (·.path))
    {st : CoordSt} (hTO : TOInv input st) :
    TOInv input (recordItem (chunkDict chunk) st it) := by
  have hndc : (chunk.map (·.path)).Nodup := hnd.sublist (hsub.map _)
  have hcnd : (it.should_translate && truthyText it.translated_text) = false := by
    rw [hfalse]
    rfl
  intro p t hp
  by_cases hpq : it.path = p
  · subst hpq
    unfold recordItem at hp
    rw [if_neg (by simp [hcnd])] at hp
    dsimp only at hp
    rw [PyDict.get?_set_self] at hp
    obtain ⟨cit, hcit, hcp⟩ := List.mem_map.mp hin
    have hcd : (chunkDict chunk).get? it.path = some cit := by
      rw [← hcp]
      exact chunkDict_get?_mem hndc hcit
    rw [hcd] at hp
    have ht : t = cit.text := (Option.some.inj hp).symm
    subst ht
    unfold origOf
    rw [← hcp, find?_path hnd (hsub.subset hcit)]
    rfl
  · obtain ⟨h1, -⟩ := @recordItem_preserves (chunkDict chunk) st it p hpq
    rw [h1] at hp
    exact hTO p t hp

theorem foldl_recordItem_TO {input chunk : List FlatLeaf}
    (hnd : (input.map (·.path)).Nodup) (hsub : chunk.Sublist input)
    {items : List TranslationItem}
    (hgood : ∀ it ∈ items, it.should_translate = false ∧ it.path ∈ chunk.map (·.path)) :
    ∀ st : CoordSt, TOInv input st →
      TOInv input (items.foldl (recordItem (chunkDict chunk)) st) := by
  induction items with
  | nil => exact fun st h => h
  | cons it rest ih =>
    intro st hTO
    rw [List.foldl_cons]
    have hhd := hgood it (List.mem_cons_self _ _)
    exact ih (fun j hj => hgood j (List.mem_cons_of_mem _ hj)) _
      (recordItem_TO hnd hsub hhd.1 hhd.2 hTO)

/-- `forceResolve` preserves the original-text invariant: it writes
original texts. -/
theorem forceResolve_TO {input : List FlatLeaf} (hnd : (input.map (·.path)).Nodup) :
    ∀ (pending : List FlatLeaf), pending.Sublist input →
      ∀ st : CoordSt, TOInv input st → TOInv input (forceResolve st pending)
  | [], _, st, h => h
  | it0 :: rest, hsub, st, h => by
    unfold forceResolve
    rw [List.foldl_cons]
    refine forceResolve_TO hnd rest (List.sublist_of_cons_sublist hsub) _ ?_
    intro p t hp
    by_cases hpq : it0.path = p
    · subst hpq
      dsimp only at hp
      rw [PyDict.get?_set_self] at hp
      have ht : t = it0.text := (Option.some.inj hp).symm
      subst ht
      unfold origOf
      rw [find?_path hnd (hsub.subset (List.mem_cons_self _ _))]
      rfl
    · dsimp only at hp
      rw [PyDict.get?_set_ne _ _ hpq] at hp
      exact h p t hp

/-- One chunk step preserves the original-text invariant for a
collaborator that flags nothing for translation and echoes only
requested paths. -/
theorem processChunk_TO {behavior : CollabBehavior}
    (hb : ∀ n c, behavior n c ≠ .raise)
    (hgood : ∀ n c items, behavior n c = .ok items →
      ∀ it ∈ items, it.should_translate = false ∧ it.path ∈ c.map (·.path))
    {input : List FlatLeaf} (hnd : (input.map (·.path)).Nodup)
    (st : CoordSt) {chunk : List FlatLeaf} (hsub : chunk.Sublist input)
    (hTO : TOInv input st) :
    ∃ st' req, processChunk behavior st chunk = .ok (st', req) ∧
      TOInv input st' ∧ req.Sublist chunk := by
  cases hcall : behavior st.callIdx chunk with
  | raise => exact absurd hcall (hb _ _)
  | noOutput =>
    exact ⟨_, _, processChunk_noOutput hcall, hTO, List.Sublist.refl _⟩
  | ok items =>
    refine ⟨_, _, processChunk_okOutput hcall, ?_, ?_⟩
    · exact foldl_recordItem_TO hnd hsub (hgood _ _ _ hcall) _ hTO
    · have h1 := (List.filter_sublist (l := chunk.map (fun j => (j.path, j)))
        (p := fun kv => !((items.map (·.path)).contains kv.1))).map (·.2)
      have h3 : (chunk.map (fun j => (j.path, j))).map (·.2) = chunk := by
        simp [List.map_map, Function.comp_def]
      rw [chunkDict_eq_of_nodup (hnd.sublist (hsub.map _))]
      rwa [h3] at h1

/-- The chunk loop preserves the original-text invariant. -/
theorem processChunks_TO {behavior : CollabBehavior}
    (hb : ∀ n c, behavior n c ≠ .raise)
    (hgood : ∀ n c items, behavior n c = .ok items →
      ∀ it ∈ items, it.should_translate = false ∧ it.path ∈ c.map (·.path))
    {input : List FlatLeaf} (hnd : (input.map (·.path)).Nodup)
    (pn ti tc : Nat) :
    ∀ (chunks : List (List FlatLeaf)) (idx : Nat) (st : CoordSt) (acc : List FlatLeaf),
      (acc ++ chunks.flatten).Sublist input → TOInv input st →
      ∃ st' pend, processChunks behavior pn ti tc idx st chunks acc = .ok (st', pend) ∧
        TOInv input st' ∧ pend.Sublist (acc ++ chunks.flatten)
  | [], idx, st, acc => by
    intro hsub hTO
    exact ⟨st, acc, rfl, hTO, by simp⟩
  | chunk :: rest, idx, st, acc => by
    intro hsub hTO
    have hchunk : chunk.Sublist input := by
      refine List.Sublist.trans ?_ hsub
      rw [List.flatten_cons]
      exact (List.sublist_append_left _ _).trans (List.sublist_append_right _ _)
    obtain ⟨st1, req, h1, hTO1, hsub1⟩ := processChunk_TO hb hgood hnd st hchunk hTO
    have hsubacc : ((acc ++ req) ++ rest.flatten).Sublist
        (acc ++ (chunk :: rest).flatten) := by
      rw [List.flatten_cons, ← List.append_assoc]
      exact ((hsub1.append_left acc).append_right _)
    obtain ⟨st', pend, h2, hTO2, hsub2⟩ :=
      processChunks_TO hb hgood hnd pn ti tc rest (idx + 1)
        { st1 with events := st1.events ++
            [ProgressEvent.inProgress pn (idx + 1) tc ((idx + 1) * 100 / tc) ti
              st1.translations.length (st1.translations.length * 100 / ti)] }
        (acc ++ req) (hsubacc.trans hsub) hTO1
    refine ⟨st', pend, ?_, hTO2, hsub2.trans hsubacc⟩
    unfold processChunks
    rw [h1]
    simpa [Bind.bind, Except.bind] using h2

/-- The pass loop preserves the original-text invariant. -/
theorem runPasses_TO {behavior : CollabBehavior}
    (hb : ∀ n c, behavior n c ≠ .raise)
    (hgood : ∀ n c items, behavior n c = .ok items →
      ∀ it ∈ items, it.should_translate = false ∧ it.path ∈ c.map (·.path))
    {input : List FlatLeaf} (hnd : (input.map (·.path)).Nodup)
    {cs : Nat} (hcs : 0 < cs) (mp ti : Nat) :
    ∀ (n : Nat) (st : CoordSt) (pending : List FlatLeaf),
      pending.Sublist input → TOInv input st →
      ∃ st' pend', runPasses behavior cs mp ti n st pending = .ok (st', pend') ∧
        TOInv input st' ∧ pend'.Sublist input
  | 0, st, pending => fun hsub hTO => ⟨st, pending, rfl, hTO, hsub⟩
  | n + 1, st, pending => by
    intro hsub hTO
    by_cases hp : pending.isEmpty
    · exact ⟨st, pending, by unfold runPasses; simp [hp], hTO, hsub⟩
    · have hflat : (([] : List FlatLeaf) ++ (chunkList cs pending).flatten).Sublist
          input := by
        rw [List.nil_append, chunkList_flatten]
        exact hsub
      obtain ⟨st1, pend1, h1, hTO1, hsub1⟩ :=
        processChunks_TO hb hgood hnd (mp - n) ti (chunkList cs pending).length
          (chunkList cs pending) 0 st [] hflat hTO
      have hsub1' : pend1.Sublist input := by
        refine List.Sublist.trans ?_ hsub
        have := hsub1
        rwa [List.nil_append, chunkList_flatten] at this
      obtain ⟨st', pend', h2, hTO2, hsub2⟩ :=
        runPasses_TO hb hgood hnd hcs mp ti n
          { st1 with events := st1.events ++
              [ProgressEvent.passCompleted (mp - n) mp ti st1.translations.length
                (st1.translations.length * 100 / ti)] } pend1 hsub1' hTO1
      refine ⟨st', pend', ?_, hTO2, hsub2⟩
      unfold runPasses
      simp only [hp, if_false, if_neg (Nat.pos_iff_ne_zero.mp hcs)]
      rw [h1]
      simpa [Bind.bind, Except.bind] using h2

/-- With a never-translating, never-hallucinating, never-raising
collaborator, every output record carries its input's path and text. -/
theorem translate_text_preserved (input : List FlatLeaf) (cs mp : Nat)
    (behavior : CollabBehavior) (hcs : 0 < cs)
    (hb : ∀ n c, behavior n c ≠ .raise)
    (hgood : ∀ n c items, behavior n c = .ok items →
      ∀ it ∈ items, it.should_translate = false ∧ it.path ∈ c.map (·.path))
    (hnd : (input.map (·.path)).Nodup) :
    ∃ st res, translate_flattened_data input cs mp behavior = .ok (st, res) ∧
      res.map (fun r => (r.path, r.text)) = input.map (fun it => (it.path, it.text)) := by
  have hTO0 : TOInv input
      { translations := [], status_map := [], callIdx := 0,
        events := [.started input.length 0 0], dispatched := [] } := by
    intro p t hp
    cases hp
  obtain ⟨st1, pend1, h1, hTO1, hsub1⟩ := runPasses_TO hb hgood hnd hcs mp
    input.length mp _ input (List.Sublist.refl input) hTO0
  cases hT : translate_flattened_data input cs mp behavior with
  | error e =>
    exfalso
    unfold translate_flattened_data at hT
    dsimp only at hT
    rw [h1] at hT
    simp [Bind.bind, Except.bind] at hT
  | ok p =>
    obtain ⟨st, res⟩ := p
    obtain ⟨st1', pend1', h1', hres⟩ := translate_ok_elim hT
    rw [h1] at h1'
    obtain ⟨hst1, hpend1⟩ : st1 = st1' ∧ pend1 = pend1' := by
      have := h1'
      simp only [Except.ok.injEq, Prod.mk.injEq] at this
      exact ⟨this.1, this.2⟩
    subst hst1; subst hpend1
    have hTO2 : TOInv input (forceResolve st1 pend1) :=
      forceResolve_TO hnd pend1 hsub1 st1 hTO1
    refine ⟨st, res, rfl, ?_⟩
    subst hres
    rw [List.map_map]
    refine List.map_congr_left ?_
    intro it hit
    have horig : origOf input it.path = some it.text := by
      unfold origOf
      rw [find?_path hnd hit]
      rfl
    show ((finalize (forceResolve st1 pend1) it).path,
      (finalize (forceResolve st1 pend1) it).text) = (it.path, it.text)
    unfold finalize
    dsimp only
    refine Prod.ext rfl ?_
    show (forceResolve st1 pend1).translations.getD it.path it.text = it.text
    unfold PyDict.getD
    cases hg : (forceResolve st1 pend1).translations.get? it.path with
    | none => rfl
    | some t =>
      have := hTO2 it.path t hg
      rw [horig] at this
      rw [Option.getD_some]
      exact (Option.some.inj this.symm)

/-- C4 amended: for documents with clean keys (nonempty, no `.`/`[`,
pairwise distinct per mapping) whose scalar leaves are all strings or
nulls, if the collaborator answers every call with a well-formed
response covering exactly the requested paths and flagging every item
`should_translate = false`, then
`rebuild(doc, translate(flatten(doc)))` is deep-equal to `doc`. -/
theorem translate_product_roundtrip (data : JFields) (cs mp : Nat)
    (behavior : CollabBehavior) (hcs : 0 < cs)
    (hclean : cleanFields data = true) (hstr : strLeavesFields data = true)
    (hbeh : ∀ n c, ∃ items, behavior n c = .ok items ∧
      (∀ p, p ∈ items.map (·.path) ↔ p ∈ c.map (·.path)) ∧
      (∀ it ∈ items, it.should_translate = false)) :
    ∃ st, translate_product_data data cs mp behavior = .ok (st, data) := by
  have hnd := flatten_paths_nodup data hclean
  have hb : ∀ n c, behavior n c ≠ .raise := by
    intro n c h
    obtain ⟨items, he, -, -⟩ := hbeh n c
    rw [he] at h
    cases h
  have hgood : ∀ n c items, behavior n c = .ok items →
      ∀ it ∈ items, it.should_translate = false ∧ it.path ∈ c.map (·.path) := by
    intro n c items' h it hit
    obtain ⟨items, he, hiff, hfalse⟩ := hbeh n c
    rw [he] at h
    injection h with h'
    subst h'
    exact ⟨hfalse it hit, (hiff it.path).mp (List.mem_map_of_mem _ hit)⟩
  obtain ⟨st, res, hT, hpairs⟩ := translate_text_preserved
    (flatten_product_data data) cs mp behavior hcs hb hgood hnd
  have hpaths : res.map (·.path) = (flatten_product_data data).map (·.path) := by
    have := congrArg (List.map (·.1)) hpairs
    simpa [List.map_map, Function.comp_def] using this
  have hndres : (res.map (·.path)).Nodup := by
    rw [hpaths]
    exact hnd
  have hrid : rebuild_product_data data res = data := by
    unfold rebuild_product_data
    refine rebuildF_id data "" ?_
    intro pv hpv
    obtain ⟨a, v⟩ := pv
    rcases strLeavesF_values data "" hstr (a, v) hpv with hnull | ⟨s, hs⟩
    · simp only at hnull
      subst hnull
      left
      refine ⟨rfl, ?_⟩
      by_cases hin : a ∈ res.map (·.path)
      · exfalso
        rw [hpaths] at hin
        obtain ⟨x, hx, hxp⟩ := List.mem_map.mp hin
        obtain ⟨v', hv', hv'null⟩ := @leaf_of_mem_flatten data "" x hx
        rw [hxp] at hv'
        have := List.inj_on_of_nodup_map (nodupF data "" hclean) hpv hv' rfl
        have hveq : JValue.null = v' := congrArg Prod.snd this
        exact hv'null hveq.symm
      · exact (resDict_get?_not_mem hin ([] : PyDict String)).trans rfl
    · simp only at hs
      subst hs
      right
      refine ⟨s, rfl, ?_⟩
      have hflat : (⟨a, s⟩ : FlatLeaf) ∈ flatten_product_data data :=
        mem_flatten_of_str_leaf hpv
      have hpair : ((a : String), s) ∈ res.map (fun r => (r.path, r.text)) := by
        rw [hpairs]
        exact List.mem_map_of_mem _ hflat
      obtain ⟨r, hrmem, hreq⟩ := List.mem_map.mp hpair
      have hrp : r.path = a := congrArg Prod.fst hreq
      have hrt : r.text = s := congrArg Prod.snd hreq
      have hres := resDict_get?_mem hndres hrmem []
      rw [hrp, hrt] at hres
      exact hres
  refine ⟨st, ?_⟩
  unfold translate_product_data
  rw [hT]
  simp only [Except.map]
  rw [hrid]

/-- C4 witness: the amended statement at the spec's end-to-end title
example with the echoing collaborator. -/
theorem translate_product_roundtrip_witness :
    ∃ st, translate_product_data (.cons "title" (.str "红色T恤") .nil) 50 3
        echoNotNeeded = .ok (st, .cons "title" (.str "红色T恤") .nil) :=
  translate_product_roundtrip (.cons "title" (.str "红色T恤") .nil) 50 3
    echoNotNeeded (by decide) (by decide) (by decide)
    (fun n c => by
      refine ⟨echoItems c, rfl, ?_, ?_⟩
      · intro p
        simp [echoItems, List.map_map, Function.comp_def]
      · intro it hit
        obtain ⟨j, hj, rfl⟩ := List.mem_map.mp hit
        rfl)

/-- A document with a single integer leaf. -/
def intLeafDoc : JFields := .cons "a" (.num 1) .nil

/-- C4 counterexample: even when the collaborator answers every item
with `should_translate = false`, the full pipeline replaces the integer
leaf `1` by the string `"1"`, so
`rebuild(doc, translate(flatten(doc)))` is not deep-equal to `doc`. -/
theorem roundtrip_fails_on_int_leaf :
    rebuiltOf (translate_product_data intLeafDoc 50 3 echoNotNeeded) =
      .cons "a" (.str "1") .nil ∧
    JFields.cons "a" (.str "1") .nil ≠ intLeafDoc := by
  constructor
  · rfl
  · intro h
    injection h with h1 h2 h3
    exact JValue.noConfusion h2
